import Mathlib

/-!
Verification of the hopscotch hash-table core of `inlined_hash_table.h`
(`InlinedHashTableBucketMetadata`, `InlinedHashTable`, `InlinedHashMap`,
`InlinedHashSet`).

Shallow embedding conventions:

* Machine integers (`unsigned`, `size_t`, `IndexType = size_t`) are embedded
  as `Nat`.  The two bitfields of `InlinedHashTableBucketMetadata`
  (`unsigned mask_ : 27; unsigned origin_ : 5`) truncate every write modulo
  `2 ^ 27` resp. `2 ^ 5`; the embedding writes these truncations explicitly.
* The table's `capacity_mask_` member always equals `capacity - 1`;
  `Clamp(i) = i & capacity_mask_`.  We store the bucket list itself (so
  `capacity = buckets.length`) and embed `Clamp` as `i % capacity`; for the
  power-of-two capacities the table actually creates these agree
  (`Nat.and_two_pow_sub_one_eq_mod`, see lemma `clamp_eq_and` below), and every
  use of `Clamp` in the source is behind a `capacity() == 0` early return.
  `Clamp(a - b)` on the wrapping `size_t` subtraction is embedded as
  `(a + capacity - b) % capacity` (valid image for `b ≤ capacity`, which holds
  at every call site: `b` is a hop distance `< capacity` or an origin delta).
* The payload cell `InlinedHashTableManualConstructor<Value>` holds either a
  constructed value or uninitialized memory; it is embedded as `Option V`.
  `value.Get()` on an unoccupied slot would read uninitialized memory (never
  done by the algorithm on states satisfying the table invariant); the
  embedding totalizes that read with `Option.getD default`.
* The functor members `hash_`, `get_key_`, `equal_to_` are ambient parameters
  `hash : K → Nat`, `getKey : V → K`, and decidable equality on `K`
  (`std::equal_to`).  `NumInlinedBuckets` is the parameter `N`.  The split of
  the storage into the inline array (first `N` slots) and the heap overflow
  array (the rest) is a pure storage detail of `Array::GetBucket`; the
  embedding uses a single sequence indexed by `[0, capacity)`.
* `assert` never aborts in the shipped configuration; the asserted facts are
  consequences of the invariant proved below.  The one assertion that guards
  a real control-flow decision, `assert(result == EMPTY_SLOT_FOUND)` in
  `ExpandTable` (and the `abort()` in `Insert`), is embedded by making the
  operation return `Option` (`none` = abort).
-/

namespace InlinedHashTable

/-- `kMaskBits = 27`: the width of the leaf mask bitfield. -/
def kMaskBits : Nat := 27

/-- `MaxHopDistance() = 27`. -/
def MaxHopDistance : Nat := 27

/-- `MaxAddDistance() = 128`. -/
def MaxAddDistance : Nat := 128

/-- `InlinedHashTableBucketMetadata`: a 27-bit leaf mask plus a 5-bit
origin-plus-one field (`0` = slot not occupied). -/
structure BucketMetadata where
  mask : Nat
  origin : Nat
deriving DecidableEq

namespace BucketMetadata

/-- `HasLeaf(index)`: `(mask_ & (1U << index)) != 0`. -/
def hasLeaf (md : BucketMetadata) (i : Nat) : Bool := md.mask.testBit i

/-- `SetLeaf(index)`: `mask_ |= (1U << index)` (27-bit bitfield write). -/
def setLeaf (md : BucketMetadata) (i : Nat) : BucketMetadata :=
  { md with mask := (md.mask ||| (1 <<< i)) % 2 ^ kMaskBits }

/-- `ClearLeaf(index)`: `mask_ &= ~(1U << index)` with a 32-bit complement,
then the 27-bit bitfield write. -/
def clearLeaf (md : BucketMetadata) (i : Nat) : BucketMetadata :=
  { md with mask := (md.mask &&& ((2 ^ 32 - 1) ^^^ (1 <<< i))) % 2 ^ kMaskBits }

/-- `IsOccupied()`: `origin_ != 0`. -/
def isOccupied (md : BucketMetadata) : Bool := md.origin != 0

/-- `SetOrigin(delta)`: `origin_ = delta + 1` (5-bit bitfield write). -/
def setOrigin (md : BucketMetadata) (delta : Nat) : BucketMetadata :=
  { md with origin := (delta + 1) % 2 ^ (32 - kMaskBits) }

/-- `ClearOrigin()`: `origin_ = 0`. -/
def clearOrigin (md : BucketMetadata) : BucketMetadata := { md with origin := 0 }

/-- `GetOrigin()`: `-1` if free, else the recorded delta. -/
def getOrigin (md : BucketMetadata) : Int :=
  if md.origin = 0 then -1 else (md.origin : Int) - 1

end BucketMetadata

/-- `__builtin_ffs`, fueled for structural recursion: one plus the index of the
least significant set bit, `0` for `0`.  The fuel `m` itself always suffices
(each step at least halves a nonzero argument). -/
def ffsAux : Nat → Nat → Nat
  | 0, _ => 0
  | fuel + 1, m =>
    if m = 0 then 0
    else if m % 2 = 1 then 1
    else 1 + ffsAux fuel (m / 2)

/-- `__builtin_ffs(m)`. -/
def ffs (m : Nat) : Nat := ffsAux m m

/-- One step of `BucketMetadata::LeafIterator::Next()` folded into a list:
starting from the iterator state `(mask, base)` (with `base` kept as the
number of bits already shifted out), produce all values `Next()` returns
before `-1`.  Each step computes `i = ffs(mask)`, shifts the mask right by
`i`, and yields `base + i - 1`.  Fueled for structural recursion; fuel `mask`
suffices since the mask strictly shrinks. -/
def leafIterAux : Nat → Nat → Nat → List Nat
  | 0, _, _ => []
  | fuel + 1, mask, base =>
    if mask = 0 then []
    else
      let i := ffs mask
      (base + i - 1) :: leafIterAux fuel (mask >>> i) (base + i)

/-- The ascending list of leaf distances yielded by `LeafIterator` over `md`. -/
def leafList (md : BucketMetadata) : List Nat := leafIterAux md.mask md.mask 0

/-- The first value `LeafIterator::Next()` yields, if any (used once in
`FindCloserFreeBucket`). -/
def firstLeaf (md : BucketMetadata) : Option Nat :=
  if md.mask = 0 then none else some (ffs md.mask - 1)

/-- One slot of the table: the metadata word plus the manually-constructed
payload cell (`none` = uninitialized). -/
structure Bucket (V : Type) where
  md : BucketMetadata
  value : Option V
deriving DecidableEq

/-- `value.Get()` totalized (see header comment). -/
def Bucket.get {V : Type} [Inhabited V] (b : Bucket V) : V := b.value.getD default

/-- The state of `InlinedHashTable::Array`: the slot sequence (inline plus
overflow storage merged; `capacity = buckets.length`) and the live count
`size_`. -/
structure Table (V : Type) where
  buckets : List (Bucket V)
  size : Nat
deriving DecidableEq

namespace Table

variable {V : Type}

/-- `capacity()`. -/
def cap (t : Table V) : Nat := t.buckets.length

/-- `GetBucket(index)`. -/
def getBucket (t : Table V) (i : Nat) : Bucket V := t.buckets.getD i ⟨⟨0, 0⟩, none⟩

/-- Writing one slot of the array. -/
def setBucket (t : Table V) (i : Nat) (b : Bucket V) : Table V :=
  { t with buckets := t.buckets.set i b }

/-- Read-modify-write of one slot's metadata word. -/
def modifyMd (t : Table V) (i : Nat) (f : BucketMetadata → BucketMetadata) : Table V :=
  t.setBucket i { t.getBucket i with md := f (t.getBucket i).md }

/-- Writing one slot's payload cell. -/
def setValue (t : Table V) (i : Nat) (v : Option V) : Table V :=
  t.setBucket i { t.getBucket i with value := v }

/-- `Clamp(index) = index & capacity_mask_` (see header comment). -/
def clamp (t : Table V) (i : Nat) : Nat := i % t.cap

/-- `Clamp(a - b)` with the wrapping `size_t` subtraction, for `b ≤ capacity`. -/
def clampSub (t : Table V) (a b : Nat) : Nat := (a + t.cap - b) % t.cap

/-- `Distance(i0, i1)`: forward circular distance. -/
def distance (t : Table V) (i0 i1 : Nat) : Nat :=
  if i0 ≤ i1 then i1 - i0 else i1 + t.cap - i0

/-- `NextValidElement(from)`, fueled (`capacity + 1` steps always suffice);
`none` embeds the `kEnd` sentinel. -/
def nextValidAux (t : Table V) : Nat → Nat → Option Nat
  | 0, _ => none
  | fuel + 1, i =>
    if t.cap ≤ i then none
    else if (t.getBucket i).md.isOccupied then some i
    else nextValidAux t fuel (i + 1)

/-- `NextValidElement(from)`. -/
def nextValidElement (t : Table V) (i : Nat) : Option Nat :=
  nextValidAux t (t.cap + 1) i

end Table

section Ops

variable {K V : Type} [DecidableEq K] [Inhabited V]
variable (hash : K → Nat) (getKey : V → K) (N : Nat)

open Table

/-- `FindInArray(array, k, hash, index)`: guard on zero capacity, then scan the
set leaf distances of the origin bucket in ascending order and return the
first slot whose stored key compares equal to `k`. -/
def findInArray (t : Table V) (k : K) (h : Nat) : Option Nat :=
  if t.cap = 0 then none
  else
    let start := t.clamp h
    match (leafList (t.getBucket start).md).find?
        (fun d => k = getKey (t.getBucket (t.clamp (start + d))).get) with
    | some d => some (t.clamp (start + d))
    | none => none

/-- The linear free-slot scan at the head of `InsertInArray`: the first
unoccupied slot among `Clamp(origin + i)` for
`i < min(MaxAddDistance, capacity)`. -/
def scanFree (t : Table V) (origin : Nat) : Option Nat :=
  ((List.range (min MaxAddDistance t.cap)).find?
      (fun i => !(t.getBucket (t.clamp (origin + i))).md.isOccupied)).map
    (fun i => t.clamp (origin + i))

/-- The loop body of `FindCloserFreeBucket`, iterating `dist` from
`MaxHopDistance - 1` down to `1`.  For the current `dist`, look at the bucket
`moved = Clamp(free - dist)`; if its first leaf `δ` exists and `δ < dist`,
move the payload of slot `n = Clamp(moved + δ)` into the free slot and return
`n` as the new free slot; otherwise continue with `dist - 1`.  Returns the
possibly-updated array and the new free index (`none` = `kEnd`). -/
def findCloserAux (t : Table V) (free : Nat) : Nat → Table V × Option Nat
  | 0 => (t, none)
  | d + 1 =>
    let dd := d + 1
    let moved := t.clampSub free dd
    match firstLeaf (t.getBucket moved).md with
    | none => findCloserAux t free d
    | some δ =>
      if dd ≤ δ then findCloserAux t free d
      else
        -- the swap, in source order: SetLeaf(dist); ClearLeaf(δ); move the
        -- payload of n into free; SetOrigin(dist) on free; ClearOrigin() on n
        let n := t.clamp (moved + δ)
        let t1 := t.modifyMd moved (fun md => (md.setLeaf dd).clearLeaf δ)
        let v := (t1.getBucket n).value
        let t2 := ((((t1.setValue n none).setValue free v).modifyMd free
            (fun md => md.setOrigin dd)).modifyMd n
            (fun md => md.clearOrigin))
        (t2, some n)

/-- `FindCloserFreeBucket(array, free_index)`. -/
def findCloserFreeBucket (t : Table V) (free : Nat) : Table V × Option Nat :=
  findCloserAux t free (MaxHopDistance - 1)

/-- The `do { ... } while` loop of `InsertInArray`: while the free slot is
`MaxHopDistance` or more from the origin, pull it closer; once it is within
hop range, set the leaf bit on the origin bucket and the origin delta on the
free bucket and return it.  Fueled for structural recursion; `capacity` units
of fuel always suffice because each `FindCloserFreeBucket` success strictly
decreases `Distance(origin, free) < capacity` (its result is
`Clamp(free - (dist - δ))` with `1 ≤ dist - δ`), so the `0` branch is
unreachable. -/
def hopLoop (origin : Nat) : Table V → Nat → Nat → Table V × Option Nat
  | t, _, 0 => (t, none)
  | t, free, fuel + 1 =>
    let fd := t.distance origin free
    if fd < MaxHopDistance then
      let t1 := (t.modifyMd origin (fun md => md.setLeaf fd)).modifyMd free
        (fun md => md.setOrigin fd)
      (t1, some free)
    else
      match findCloserFreeBucket t free with
      | (t', some nf) => hopLoop origin t' nf fuel
      | (t', none) => (t', none)

/-- `InsertInArray(array, k, hash, index_found)`.  `(t, some f)` embeds
`EMPTY_SLOT_FOUND` with `*index_found = f`; `(t, none)` embeds `ARRAY_FULL`.
(The enum value `KEY_FOUND` is never produced by this function: the key search
happens in `Insert` before it is called.) -/
def insertInArray (t : Table V) (h : Nat) : Table V × Option Nat :=
  if t.cap = 0 then (t, none)
  else
    let origin := t.clamp h
    match scanFree t origin with
    | none => (t, none)
    | some f => hopLoop origin t f t.cap

/-- `ComputeCapacity(desired)`: clamp `desired` up to `NumInlinedBuckets`,
return it unchanged if still zero, else `1 << ceil(log2(desired))`.
`std::ceil(std::log2(d))` is computed in `double` precision in the source;
it is exact on the argument ranges the table produces and is embedded as the
exact ceiling base-2 logarithm `clog2` below. -/
def clog2Aux : Nat → Nat → Nat
  | 0, _ => 0
  | fuel + 1, n => if n ≤ 1 then 0 else 1 + clog2Aux fuel ((n + 1) / 2)

/-- Ceiling base-2 logarithm (`clog2 n = ⌈log₂ n⌉` for `n ≥ 1`). -/
def clog2 (n : Nat) : Nat := clog2Aux n n

/-- `ComputeCapacity(desired)`. -/
def computeCapacity (desired : Nat) : Nat :=
  let d := if desired < N then N else desired
  if d = 0 then d else 2 ^ clog2 d

/-- The `Array(capacity_arg)` constructor composed with the
`InlinedHashTable(bucket_count, ...)` constructor: a table of
`ComputeCapacity(bucket_count)` default-constructed buckets with `size_ = 0`. -/
def mkTable (bucketCount : Nat) : Table V :=
  { buckets := List.replicate (computeCapacity N bucketCount) ⟨⟨0, 0⟩, none⟩, size := 0 }

/-- The per-slot migration fold inside `ExpandTable`: for each old index in
order, skip unoccupied slots, otherwise re-insert the slot's key into the new
array and move its payload to the returned position.  `none` embeds the
`assert(result == EMPTY_SLOT_FOUND)` failure. -/
def expandAux (told : Table V) : List Nat → Table V → Option (Table V)
  | [], a => some a
  | i :: rest, a =>
    let ob := told.getBucket i
    if ob.md.isOccupied then
      match insertInArray (a : Table V) (hash (getKey ob.get)) with
      | (a', some ni) => expandAux told rest (a'.setValue ni ob.value)
      | (_, none) => none
    else expandAux told rest a

/-- `ExpandTable(delta)`. -/
def expandTable (t : Table V) (delta : Nat) : Option (Table V) :=
  let a0 : Table V :=
    { buckets := List.replicate (computeCapacity N (t.cap + delta)) ⟨⟨0, 0⟩, none⟩,
      size := 0 }
  match expandAux hash getKey t (List.range t.cap) a0 with
  | none => none
  | some a => some { a with size := t.size }

/-- The bounded retry loop of `Insert`: up to four `InsertInArray` attempts
with an `ExpandTable(1)` between failures; `none` embeds the final `abort()`
(and an `ExpandTable` assertion failure).  On `EMPTY_SLOT_FOUND` the live
count is incremented and the slot index returned with `inserted = true`. -/
def insertLoop (h : Nat) : Table V → Nat → Option (Table V × Nat × Bool)
  | _, 0 => none
  | t, iter + 1 =>
    match insertInArray t h with
    | (t', some i) => some ({ t' with size := t'.size + 1 }, i, true)
    | (t', none) =>
      match expandTable hash getKey N t' 1 with
      | none => none
      | some t'' => insertLoop h t'' iter

/-- `Insert(key, index)`: hash once, return `KEY_FOUND` (embedded as the
`false` flag, table unchanged) if `FindInArray` succeeds, else run the retry
loop. -/
def Insert (t : Table V) (k : K) : Option (Table V × Nat × Bool) :=
  let h := hash k
  match findInArray getKey t k h with
  | some i => some (t, i, false)
  | none => insertLoop hash getKey N h t 4

/-- The public `insert(value)`: run `Insert` on the extracted key; on
`KEY_FOUND` return the existing slot with `false` and touch nothing, else
construct the value in the returned slot and return `true`. -/
def insert (t : Table V) (v : V) : Option (Table V × Nat × Bool) :=
  match Insert hash getKey N t (getKey v) with
  | none => none
  | some (t', i, false) => some (t', i, false)
  | some (t', i, true) => some (t'.setValue i (some v), i, true)

/-- The public `find(k)`: `none` embeds the end iterator. -/
def find (t : Table V) (k : K) : Option Nat :=
  findInArray getKey t k (hash k)

/-- `erase(iterator)` at slot `i` (sans the returned next iterator): read the
origin delta, clear the slot's origin and destroy its payload, clear the leaf
bit on the origin bucket, decrement `size_`. -/
def eraseAt (t : Table V) (i : Nat) : Table V :=
  let delta := ((t.getBucket i).md.getOrigin).toNat
  let t1 := (t.modifyMd i (fun md => md.clearOrigin)).setValue i none
  let t2 := t1.modifyMd (t1.clampSub i delta) (fun md => md.clearLeaf delta)
  { t2 with size := t2.size - 1 }

/-- `erase(k)`: find, erase if present, return `1` or `0`. -/
def erase (t : Table V) (k : K) : Table V × Nat :=
  match find hash getKey t k with
  | none => (t, 0)
  | some i => (eraseAt t i, 1)

/-- `clear()`: destroy every live payload, clear all metadata, zero `size_`. -/
def clear (t : Table V) : Table V :=
  { buckets := t.buckets.map (fun _ => ⟨⟨0, 0⟩, none⟩), size := 0 }

/-- The index list an iterator walk visits (`begin()` through repeated
`operator++`), fueled (`capacity + 1` steps suffice: the visited indices are
strictly increasing below `capacity`). -/
def iterIdxAux (t : Table V) : Nat → Nat → List Nat
  | 0, _ => []
  | fuel + 1, i =>
    match t.nextValidElement i with
    | none => []
    | some j => j :: iterIdxAux t fuel (j + 1)

/-- The slot indices iteration visits, in order. -/
def iterIdx (t : Table V) : List Nat := iterIdxAux t (t.cap + 1) 0

/-- The elements iteration visits (`*it` is the live payload). -/
def elems (t : Table V) : List V := (iterIdx t).map (fun i => (t.getBucket i).get)

end Ops

section MapOps

/-! `InlinedHashMap<Key, Value, ...>`: the element type is
`BucketValue = std::pair<Key, Value>` and `GetKey` projects `.first`. -/

variable {K W : Type} [DecidableEq K] [Inhabited K] [Inhabited W]
variable (hash : K → Nat) (N : Nat)

/-- The core of `InlinedHashMap::operator[]`: run `Insert(k)`; if the key was
not found, default-construct the pair in the slot and overwrite its `first`
with a copy of `k`.  Returns the table and the slot index whose `second` the
reference refers to. -/
def mapIndexOp (t : Table (K × W)) (k : K) : Option (Table (K × W) × Nat) :=
  match Insert hash Prod.fst N t k with
  | none => none
  | some (t', i, inserted) =>
    if inserted then some (t'.setValue i (some (k, default)), i)
    else some (t', i)

/-- `m[k] = w`: `operator[]` followed by assignment through the returned
reference (which writes only the `second` component of the slot). -/
def idxAssign (t : Table (K × W)) (k : K) (w : W) : Option (Table (K × W)) :=
  match mapIndexOp hash N t k with
  | none => none
  | some (t', i) => some (t'.setValue i (some (((t'.getBucket i).get).1, w)))

/-- Reading `m[k]`: `operator[]` (which may insert) followed by reading the
referenced `second` component. -/
def idxRead (t : Table (K × W)) (k : K) : Option (Table (K × W) × W) :=
  match mapIndexOp hash N t k with
  | none => none
  | some (t', i) => some (t', ((t'.getBucket i).get).2)

end MapOps

section Invariant

variable {K V : Type} [DecidableEq K] [Inhabited V]
variable (hash : K → Nat) (getKey : V → K) (N : Nat)

/-- The number of occupied slots of the table. -/
def countOcc (t : Table V) : Nat :=
  ((Finset.range t.cap).filter (fun i => (t.getBucket i).md.isOccupied = true)).card

/-- The hopscotch metadata invariant, sans the live-count clause.  For every
slot: the two bitfields are in range (the origin field is `0` or
`delta + 1 ≤ kMaskBits`); a slot is occupied iff its payload cell holds a
value; and every occupied slot records an origin delta `< capacity` such that
the bucket `delta` before it has the corresponding leaf bit set and the
stored key hashes to that bucket.  For every bucket: every set leaf bit `δ`
satisfies `δ < capacity` and points at a slot whose origin field records
exactly `δ`. -/
def InvCore (t : Table V) : Prop :=
  (∀ i, i < t.cap →
    ((t.getBucket i).md.mask < 2 ^ kMaskBits ∧
     (t.getBucket i).md.origin ≤ kMaskBits ∧
     ((t.getBucket i).md.origin ≠ 0 ↔ (t.getBucket i).value.isSome = true) ∧
     ((t.getBucket i).md.origin ≠ 0 →
       (t.getBucket i).md.origin - 1 < t.cap ∧
       (t.getBucket (t.clampSub i ((t.getBucket i).md.origin - 1))).md.hasLeaf
         ((t.getBucket i).md.origin - 1) = true ∧
       t.clamp (hash (getKey (t.getBucket i).get)) =
         t.clampSub i ((t.getBucket i).md.origin - 1)))) ∧
  (∀ b, b < t.cap → ∀ δ, δ < kMaskBits →
    (t.getBucket b).md.hasLeaf δ = true →
      δ < t.cap ∧ (t.getBucket (t.clamp (b + δ))).md.origin = δ + 1)

/-- The full table invariant: the metadata invariant plus `size_` equal to the
number of occupied slots. -/
def Inv (t : Table V) : Prop := InvCore hash getKey t ∧ t.size = countOcc t

/-- Some live slot stores a value whose extracted key is `κ`. -/
def HasKey (t : Table V) (κ : K) : Prop :=
  ∃ i, i < t.cap ∧ ∃ v, (t.getBucket i).value = some v ∧ getKey v = κ

instance (t : Table V) : Decidable (InvCore hash getKey t) := by
  unfold InvCore
  exact inferInstance

instance (t : Table V) : Decidable (Inv hash getKey t) := by
  unfold Inv
  exact inferInstance

/-- Table states reachable from construction by the public mutators (`insert`,
`erase` by key, `erase` by a valid iterator, `clear`), including every resize
they trigger internally. -/
inductive Reachable : Table V → Prop
  | base : ∀ bucketCount, Reachable (mkTable N bucketCount)
  | insertStep : ∀ t v t' i b, Reachable t →
      insert hash getKey N t v = some (t', i, b) → Reachable t'
  | eraseStep : ∀ t k, Reachable t → Reachable (erase hash getKey t k).1
  | eraseItStep : ∀ t i, Reachable t → i < t.cap →
      (t.getBucket i).md.isOccupied = true → Reachable (eraseAt t i)
  | clearStep : ∀ t, Reachable t → Reachable (clear t)

/-- Folding the public `insert` over a list of elements (`none` as soon as one
insertion aborts). -/
def insertMany (t : Table V) : List V → Option (Table V)
  | [] => some t
  | v :: rest =>
    match insert hash getKey N t v with
    | none => none
    | some (t', _, _) => insertMany t' rest

end Invariant

/-! ### Lemmas about the bit-level helpers -/

theorem ffsAux_pos (fuel m : Nat) (hne : m ≠ 0) (hle : m ≤ fuel) :
    1 ≤ ffsAux fuel m := by
  match fuel with
  | 0 => omega
  | fuel + 1 =>
    rw [ffsAux, if_neg hne]
    split <;> omega

theorem ffsAux_spec : ∀ fuel m, m ≤ fuel → m ≠ 0 →
    m.testBit (ffsAux fuel m - 1) = true ∧
      ∀ j, j < ffsAux fuel m - 1 → m.testBit j = false := by
  intro fuel
  induction fuel with
  | zero => intro m hle hne; omega
  | succ fuel ih =>
    intro m hle hne
    rw [ffsAux, if_neg hne]
    by_cases h2 : m % 2 = 1
    · rw [if_pos h2]
      refine ⟨by simp [Nat.testBit_zero, h2], fun j hj => by omega⟩
    · rw [if_neg h2]
      have hm2 : m / 2 ≠ 0 := by omega
      have hle2 : m / 2 ≤ fuel := by omega
      obtain ⟨h1, hlo⟩ := ih (m / 2) hle2 hm2
      have hpos : 1 ≤ ffsAux fuel (m / 2) := ffsAux_pos fuel (m / 2) hm2 hle2
      constructor
      · have he : 1 + ffsAux fuel (m / 2) - 1 = (ffsAux fuel (m / 2) - 1) + 1 := by omega
        rw [he, Nat.testBit_succ]
        exact h1
      · intro j hj
        match j with
        | 0 => simp [Nat.testBit_zero]; omega
        | j + 1 =>
          rw [Nat.testBit_succ]
          exact hlo j (by omega)

theorem ffs_pos (m : Nat) (hm : m ≠ 0) : 1 ≤ ffs m := ffsAux_pos m m hm le_rfl

theorem ffs_spec (m : Nat) (hm : m ≠ 0) :
    m.testBit (ffs m - 1) = true ∧ ∀ j, j < ffs m - 1 → m.testBit j = false :=
  ffsAux_spec m m le_rfl hm

theorem mem_leafIterAux : ∀ fuel mask base d, mask ≤ fuel →
    (d ∈ leafIterAux fuel mask base ↔ ∃ j, mask.testBit j = true ∧ d = base + j) := by
  intro fuel
  induction fuel with
  | zero =>
    intro mask base d hle
    have h0 : mask = 0 := by omega
    subst h0
    simp [leafIterAux, Nat.zero_testBit]
  | succ fuel ih =>
    intro mask base d hle
    rw [leafIterAux]
    by_cases h0 : mask = 0
    · subst h0; simp [Nat.zero_testBit]
    · rw [if_neg h0]
      have hffs := ffs_spec mask h0
      have hpos := ffs_pos mask h0
      have hle2 : mask >>> ffs mask ≤ fuel := by
        have h1 : mask >>> ffs mask ≤ mask / 2 := by
          rw [Nat.shiftRight_eq_div_pow]
          exact Nat.div_le_div_left (by
            calc (2 : Nat) = 2 ^ 1 := by norm_num
            _ ≤ 2 ^ ffs mask := Nat.pow_le_pow_right (by omega) hpos) (by omega)
        omega
      simp only [List.mem_cons]
      rw [ih _ _ _ hle2]
      constructor
      · rintro (rfl | ⟨j, hj, rfl⟩)
        · exact ⟨ffs mask - 1, hffs.1, by omega⟩
        · rw [Nat.testBit_shiftRight] at hj
          exact ⟨ffs mask + j, hj, by omega⟩
      · rintro ⟨j, hj, rfl⟩
        rcases lt_trichotomy j (ffs mask - 1) with hlt | rfl | hgt
        · rw [hffs.2 j hlt] at hj; cases hj
        · left; omega
        · right
          refine ⟨j - ffs mask, ?_, by omega⟩
          rw [Nat.testBit_shiftRight]
          have he : ffs mask + (j - ffs mask) = j := by omega
          rw [he]
          exact hj

theorem mem_leafList (md : BucketMetadata) (d : Nat) :
    d ∈ leafList md ↔ md.mask.testBit d = true := by
  rw [leafList, mem_leafIterAux _ _ _ _ le_rfl]
  constructor
  · rintro ⟨j, hj, rfl⟩; simpa using hj
  · intro h; exact ⟨d, h, by omega⟩

theorem firstLeaf_none (md : BucketMetadata) (h : firstLeaf md = none) : md.mask = 0 := by
  by_contra hne
  rw [firstLeaf, if_neg hne] at h
  cases h

theorem firstLeaf_some (md : BucketMetadata) (δ : Nat) (h : firstLeaf md = some δ) :
    md.mask.testBit δ = true ∧ ∀ j, j < δ → md.mask.testBit j = false := by
  by_cases hne : md.mask = 0
  · rw [firstLeaf, if_pos hne] at h; cases h
  · rw [firstLeaf, if_neg hne] at h
    obtain rfl : ffs md.mask - 1 = δ := by injection h
    exact ffs_spec md.mask hne

/-! ### Lemmas about the metadata bitfield operations -/

theorem origin_setLeaf (md : BucketMetadata) (i : Nat) : (md.setLeaf i).origin = md.origin := rfl

theorem origin_clearLeaf (md : BucketMetadata) (i : Nat) :
    (md.clearLeaf i).origin = md.origin := rfl

theorem mask_setOrigin (md : BucketMetadata) (d : Nat) : (md.setOrigin d).mask = md.mask := rfl

theorem mask_clearOrigin (md : BucketMetadata) : md.clearOrigin.mask = md.mask := rfl

theorem origin_clearOrigin (md : BucketMetadata) : md.clearOrigin.origin = 0 := rfl

theorem origin_setOrigin (md : BucketMetadata) (d : Nat) (hd : d < kMaskBits) :
    (md.setOrigin d).origin = d + 1 := by
  have hk : kMaskBits = 27 := rfl
  rw [BucketMetadata.setOrigin]
  simp only [hk]
  norm_num
  omega

theorem mask_setLeaf_lt (md : BucketMetadata) (i : Nat) :
    (md.setLeaf i).mask < 2 ^ kMaskBits := by
  rw [BucketMetadata.setLeaf]
  exact Nat.mod_lt _ (by norm_num [kMaskBits])

theorem mask_clearLeaf_lt (md : BucketMetadata) (i : Nat) :
    (md.clearLeaf i).mask < 2 ^ kMaskBits := by
  rw [BucketMetadata.clearLeaf]
  exact Nat.mod_lt _ (by norm_num [kMaskBits])

theorem hasLeaf_setLeaf (md : BucketMetadata) (i j : Nat) (hm : md.mask < 2 ^ kMaskBits)
    (hi : i < kMaskBits) :
    (md.setLeaf i).hasLeaf j = (md.hasLeaf j || decide (j = i)) := by
  have hk : kMaskBits = 27 := rfl
  rw [BucketMetadata.setLeaf, BucketMetadata.hasLeaf, BucketMetadata.hasLeaf]
  simp only [Nat.testBit_mod_two_pow, Nat.testBit_or, Nat.shiftLeft_eq, one_mul,
    Nat.testBit_two_pow]
  by_cases hj : j < kMaskBits
  · simp only [hj, decide_True, Bool.true_and]
    congr 1
    exact decide_eq_decide.mpr ⟨fun h => h.symm, fun h => h.symm⟩
  · have h1 : md.mask.testBit j = false :=
      Nat.testBit_lt_two_pow (lt_of_lt_of_le hm (Nat.pow_le_pow_right (by omega) (by omega)))
    have h2 : ¬(j = i) := by omega
    simp [hj, h1, h2]

theorem hasLeaf_clearLeaf (md : BucketMetadata) (i j : Nat) (hm : md.mask < 2 ^ kMaskBits) :
    (md.clearLeaf i).hasLeaf j = (md.hasLeaf j && !decide (j = i)) := by
  have hk : kMaskBits = 27 := rfl
  rw [BucketMetadata.clearLeaf, BucketMetadata.hasLeaf, BucketMetadata.hasLeaf]
  simp only [Nat.testBit_mod_two_pow, Nat.testBit_and, Nat.testBit_xor,
    Nat.testBit_two_pow_sub_one, Nat.shiftLeft_eq, one_mul, Nat.testBit_two_pow]
  by_cases hj : j < kMaskBits
  · have hj32 : j < 32 := by omega
    simp only [hj, hj32, decide_True, Bool.true_and, Bool.true_xor]
    simp [eq_comm]
  · have h1 : md.mask.testBit j = false :=
      Nat.testBit_lt_two_pow (lt_of_lt_of_le hm (Nat.pow_le_pow_right (by omega) (by omega)))
    simp [hj, h1]

/-! ### Lemmas about table access and the circular index arithmetic -/

namespace Table

variable {V : Type}

theorem cap_setBucket (t : Table V) (i : Nat) (b : Bucket V) :
    (t.setBucket i b).cap = t.cap := List.length_set t.buckets i b

theorem cap_modifyMd (t : Table V) (i : Nat) (f : BucketMetadata → BucketMetadata) :
    (t.modifyMd i f).cap = t.cap := cap_setBucket ..

theorem cap_setValue (t : Table V) (i : Nat) (v : Option V) :
    (t.setValue i v).cap = t.cap := cap_setBucket ..

theorem size_setBucket (t : Table V) (i : Nat) (b : Bucket V) :
    (t.setBucket i b).size = t.size := rfl

theorem size_modifyMd (t : Table V) (i : Nat) (f : BucketMetadata → BucketMetadata) :
    (t.modifyMd i f).size = t.size := rfl

theorem size_setValue (t : Table V) (i : Nat) (v : Option V) :
    (t.setValue i v).size = t.size := rfl

theorem getBucket_setBucket_self (t : Table V) (i : Nat) (b : Bucket V) (hi : i < t.cap) :
    (t.setBucket i b).getBucket i = b := by
  rw [setBucket, getBucket]
  simp only [List.getD_eq_getElem?_getD, List.getElem?_set_self hi, Option.getD_some]

theorem getBucket_setBucket_ne (t : Table V) (i j : Nat) (b : Bucket V) (h : i ≠ j) :
    (t.setBucket i b).getBucket j = t.getBucket j := by
  rw [setBucket, getBucket, getBucket]
  simp only [List.getD_eq_getElem?_getD, List.getElem?_set_ne h]

theorem getBucket_modifyMd_self (t : Table V) (i : Nat) (f : BucketMetadata → BucketMetadata)
    (hi : i < t.cap) :
    (t.modifyMd i f).getBucket i = { t.getBucket i with md := f (t.getBucket i).md } :=
  getBucket_setBucket_self t i _ hi

theorem getBucket_modifyMd_ne (t : Table V) (i j : Nat) (f : BucketMetadata → BucketMetadata)
    (h : i ≠ j) : (t.modifyMd i f).getBucket j = t.getBucket j :=
  getBucket_setBucket_ne t i j _ h

theorem getBucket_setValue_self (t : Table V) (i : Nat) (v : Option V) (hi : i < t.cap) :
    (t.setValue i v).getBucket i = { t.getBucket i with value := v } :=
  getBucket_setBucket_self t i _ hi

theorem getBucket_setValue_ne (t : Table V) (i j : Nat) (v : Option V) (h : i ≠ j) :
    (t.setValue i v).getBucket j = t.getBucket j :=
  getBucket_setBucket_ne t i j _ h

/-- Two-case reduction of `x % cap` for `x < 2 * cap`. -/
theorem mod_two_cases {x cap : Nat} (hc : 0 < cap) (h : x < 2 * cap) :
    x % cap = if x < cap then x else x - cap := by
  split
  · exact Nat.mod_eq_of_lt (by assumption)
  · rw [Nat.mod_eq_sub_mod (by omega)]
    exact Nat.mod_eq_of_lt (by omega)

theorem clamp_lt (t : Table V) (i : Nat) (hc : 0 < t.cap) : t.clamp i < t.cap :=
  Nat.mod_lt _ hc

theorem clamp_eq_of_lt (t : Table V) {i : Nat} (hi : i < t.cap) : t.clamp i = i :=
  Nat.mod_eq_of_lt hi

theorem clampSub_lt (t : Table V) (a b : Nat) (hc : 0 < t.cap) : t.clampSub a b < t.cap :=
  Nat.mod_lt _ hc

theorem distance_lt (t : Table V) {i0 i1 : Nat} (h0 : i0 < t.cap) (h1 : i1 < t.cap) :
    t.distance i0 i1 < t.cap := by
  rw [distance]; split <;> omega

theorem distance_self (t : Table V) (i : Nat) : t.distance i i = 0 := by
  rw [distance]; simp

theorem distance_eq_zero (t : Table V) {i0 i1 : Nat} (h0 : i0 < t.cap) (h1 : i1 < t.cap)
    (h : t.distance i0 i1 = 0) : i0 = i1 := by
  rw [distance] at h; split at h <;> omega

theorem clamp_add_distance (t : Table V) {i0 i1 : Nat} (h0 : i0 < t.cap) (h1 : i1 < t.cap) :
    t.clamp (i0 + t.distance i0 i1) = i1 := by
  rw [clamp, distance]
  split
  · have he : i0 + (i1 - i0) = i1 := by omega
    rw [he]; exact Nat.mod_eq_of_lt h1
  · have he : i0 + (i1 + t.cap - i0) = i1 + t.cap := by omega
    rw [he, Nat.add_mod_right]; exact Nat.mod_eq_of_lt h1

theorem distance_clamp_add (t : Table V) {i0 d : Nat} (h0 : i0 < t.cap) (hd : d < t.cap) :
    t.distance i0 (t.clamp (i0 + d)) = d := by
  rw [clamp, mod_two_cases (by omega) (by omega), distance]
  split <;> split <;> omega

theorem clamp_add_eq_iff (t : Table V) {b δ1 δ2 : Nat} (h1 : δ1 < t.cap) (h2 : δ2 < t.cap)
    (h : t.clamp (b + δ1) = t.clamp (b + δ2)) : δ1 = δ2 := by
  have hc : 0 < t.cap := by omega
  rw [clamp, clamp] at h
  have e1 := Nat.div_add_mod (b + δ1) t.cap
  have e2 := Nat.div_add_mod (b + δ2) t.cap
  have m1 : (b + δ1) % t.cap < t.cap := Nat.mod_lt _ hc
  have m2 : (b + δ2) % t.cap < t.cap := Nat.mod_lt _ hc
  -- from the two decompositions, δ1 ≡ δ2 (mod cap) with both below cap
  have hq : t.cap * ((b + δ1) / t.cap) + δ2 = t.cap * ((b + δ2) / t.cap) + δ1 := by omega
  rcases Nat.le_total ((b + δ1) / t.cap) ((b + δ2) / t.cap) with hle | hle
  · obtain ⟨c, hc'⟩ := Nat.le.dest hle
    rw [← hc'] at hq
    rw [Nat.mul_add] at hq
    rcases Nat.eq_zero_or_pos c with rfl | hcpos
    · omega
    · have : t.cap * 1 ≤ t.cap * c := Nat.mul_le_mul_left _ hcpos
      omega
  · obtain ⟨c, hc'⟩ := Nat.le.dest hle
    rw [← hc'] at hq
    rw [Nat.mul_add] at hq
    rcases Nat.eq_zero_or_pos c with rfl | hcpos
    · omega
    · have : t.cap * 1 ≤ t.cap * c := Nat.mul_le_mul_left _ hcpos
      omega

theorem clamp_clampSub_add (t : Table V) {a b : Nat} (ha : a < t.cap) (hb : b ≤ t.cap) :
    t.clamp (t.clampSub a b + b) = a := by
  have hc : 0 < t.cap := by omega
  rw [clampSub, clamp]
  rw [@mod_two_cases (a + t.cap - b) t.cap hc (by omega)]
  by_cases h1 : a + t.cap - b < t.cap
  · simp only [if_pos h1]
    rw [@mod_two_cases (a + t.cap - b + b) t.cap hc (by omega)]
    split <;> omega
  · simp only [if_neg h1]
    rw [@mod_two_cases (a + t.cap - b - t.cap + b) t.cap hc (by omega)]
    split <;> omega

theorem distance_clampSub (t : Table V) {a b : Nat} (ha : a < t.cap) (hb' : b < t.cap) :
    t.distance (t.clampSub a b) a = b := by
  have hc : 0 < t.cap := by omega
  rw [clampSub, @mod_two_cases (a + t.cap - b) t.cap hc (by omega), distance]
  by_cases h1 : a + t.cap - b < t.cap
  · simp only [if_pos h1]
    split <;> omega
  · simp only [if_neg h1]
    split <;> omega

theorem clampSub_distance (t : Table V) {i0 i1 : Nat} (h0 : i0 < t.cap) (h1 : i1 < t.cap) :
    t.clampSub i1 (t.distance i0 i1) = i0 := by
  rw [clampSub, distance]
  split
  · have he : i1 + t.cap - (i1 - i0) = i0 + t.cap := by omega
    rw [he, Nat.add_mod_right]; exact Nat.mod_eq_of_lt h0
  · have he : i1 + t.cap - (i1 + t.cap - i0) = i0 := by omega
    rw [he]; exact Nat.mod_eq_of_lt h0

theorem distance_clampSub_of_le (t : Table V) {o f m : Nat} (ho : o < t.cap) (hf : f < t.cap)
    (hm : m ≤ t.distance o f) (hmc : m ≤ t.cap) :
    t.distance o (t.clampSub f m) = t.distance o f - m := by
  have hc : 0 < t.cap := by omega
  have hd : t.distance o f < t.cap := distance_lt t ho hf
  rw [clampSub, @mod_two_cases (f + t.cap - m) t.cap hc (by omega)]
  rw [distance] at hm hd ⊢
  conv_rhs => rw [distance]
  by_cases h1 : f + t.cap - m < t.cap
  · simp only [if_pos h1]
    split at hm <;> split <;> omega
  · simp only [if_neg h1]
    split at hm <;> split <;> omega

theorem clampSub_eq_clampSub_sub (t : Table V) {f dd δ : Nat} (hf : f < t.cap)
    (hdd : dd ≤ t.cap) (hδ : δ < dd) :
    t.clamp (t.clampSub f dd + δ) = t.clampSub f (dd - δ) := by
  have hc : 0 < t.cap := by omega
  rw [clampSub, clampSub, clamp]
  rw [@mod_two_cases (f + t.cap - dd) t.cap hc (by omega)]
  rw [@mod_two_cases (f + t.cap - (dd - δ)) t.cap hc (by omega)]
  by_cases h1 : f + t.cap - dd < t.cap
  · simp only [if_pos h1]
    rw [@mod_two_cases (f + t.cap - dd + δ) t.cap hc (by omega)]
    split <;> split <;> omega
  · simp only [if_neg h1]
    rw [@mod_two_cases (f + t.cap - dd - t.cap + δ) t.cap hc (by omega)]
    split <;> split <;> omega

end Table

/-! ### Small accessor and counting lemmas -/

namespace Table

variable {V : Type}

theorem clamp_add_left_eq_iff (t : Table V) {b1 b2 δ : Nat} (h1 : b1 < t.cap)
    (h2 : b2 < t.cap) (h : t.clamp (b1 + δ) = t.clamp (b2 + δ)) : b1 = b2 := by
  have hmod : b1 ≡ b2 [MOD t.cap] := Nat.ModEq.add_right_cancel' δ h
  have := hmod
  rw [Nat.ModEq, Nat.mod_eq_of_lt h1, Nat.mod_eq_of_lt h2] at this
  exact this

end Table

theorem isOccupied_true_iff (md : BucketMetadata) : md.isOccupied = true ↔ md.origin ≠ 0 := by
  simp [BucketMetadata.isOccupied]

theorem isOccupied_false_iff (md : BucketMetadata) : md.isOccupied = false ↔ md.origin = 0 := by
  simp [BucketMetadata.isOccupied]

theorem Bucket.get_of_some {V : Type} [Inhabited V] {b : Bucket V} {v : V}
    (h : b.value = some v) : b.get = v := by
  rw [Bucket.get, h]; rfl

section InvLemmas

variable {K V : Type} [DecidableEq K] [Inhabited V]
variable {hash : K → Nat} {getKey : V → K}

theorem invCore_mask_lt {t : Table V} (h : InvCore hash getKey t) {i : Nat} (hi : i < t.cap) :
    (t.getBucket i).md.mask < 2 ^ kMaskBits := (h.1 i hi).1

theorem invCore_origin_le {t : Table V} (h : InvCore hash getKey t) {i : Nat} (hi : i < t.cap) :
    (t.getBucket i).md.origin ≤ kMaskBits := (h.1 i hi).2.1

theorem invCore_occ_iff_some {t : Table V} (h : InvCore hash getKey t) {i : Nat}
    (hi : i < t.cap) :
    (t.getBucket i).md.origin ≠ 0 ↔ (t.getBucket i).value.isSome = true := (h.1 i hi).2.2.1

theorem invCore_origin_spec {t : Table V} (h : InvCore hash getKey t) {i : Nat} (hi : i < t.cap)
    (ho : (t.getBucket i).md.origin ≠ 0) :
    (t.getBucket i).md.origin - 1 < t.cap ∧
      (t.getBucket (t.clampSub i ((t.getBucket i).md.origin - 1))).md.hasLeaf
        ((t.getBucket i).md.origin - 1) = true ∧
      t.clamp (hash (getKey (t.getBucket i).get)) =
        t.clampSub i ((t.getBucket i).md.origin - 1) := (h.1 i hi).2.2.2 ho

theorem invCore_leaf_spec {t : Table V} (h : InvCore hash getKey t) {b δ : Nat} (hb : b < t.cap)
    (hδ : δ < kMaskBits) (hl : (t.getBucket b).md.hasLeaf δ = true) :
    δ < t.cap ∧ (t.getBucket (t.clamp (b + δ))).md.origin = δ + 1 := h.2 b hb δ hδ hl

/-- A set leaf bit's distance is below `kMaskBits` (because the mask has only
`kMaskBits` bits). -/
theorem leaf_lt_kMaskBits {t : Table V} (h : InvCore hash getKey t) {b δ : Nat} (hb : b < t.cap)
    (hl : (t.getBucket b).md.hasLeaf δ = true) : δ < kMaskBits := by
  by_contra hge
  have hlt : (t.getBucket b).md.mask < 2 ^ δ :=
    lt_of_lt_of_le (invCore_mask_lt h hb) (Nat.pow_le_pow_right (by omega) (by omega))
  have hfalse := Nat.testBit_lt_two_pow hlt
  rw [BucketMetadata.hasLeaf] at hl
  rw [hl] at hfalse
  cases hfalse

/-- At most one leaf bit of at most one bucket points at a given slot. -/
theorem leaf_unique {t : Table V} (h : InvCore hash getKey t) {b1 δ1 b2 δ2 : Nat}
    (hb1 : b1 < t.cap) (hb2 : b2 < t.cap)
    (hl1 : (t.getBucket b1).md.hasLeaf δ1 = true) (hl2 : (t.getBucket b2).md.hasLeaf δ2 = true)
    (he : t.clamp (b1 + δ1) = t.clamp (b2 + δ2)) : b1 = b2 ∧ δ1 = δ2 := by
  have hk1 := leaf_lt_kMaskBits h hb1 hl1
  have hk2 := leaf_lt_kMaskBits h hb2 hl2
  obtain ⟨hc1, ho1⟩ := invCore_leaf_spec h hb1 hk1 hl1
  obtain ⟨hc2, ho2⟩ := invCore_leaf_spec h hb2 hk2 hl2
  rw [he] at ho1
  have hδ : δ1 = δ2 := by rw [ho2] at ho1; omega
  subst hδ
  exact ⟨t.clamp_add_left_eq_iff hb1 hb2 he, rfl⟩

/-- The origin bucket of an occupied slot reached through a leaf bit: the
bucket is recovered by `clampSub`. -/
theorem leaf_origin_recover (t : Table V) {b δ : Nat} (hb : b < t.cap) (hδ : δ < t.cap) :
    t.clampSub (t.clamp (b + δ)) δ = b := by
  have h1 : t.distance b (t.clamp (b + δ)) = δ := t.distance_clamp_add hb hδ
  have := t.clampSub_distance hb (t.clamp_lt (b + δ) (by omega))
  rw [h1] at this
  exact this

theorem countOcc_eq_sum (t : Table V) :
    countOcc t = ∑ i ∈ Finset.range t.cap,
      (if (t.getBucket i).md.isOccupied = true then 1 else 0) := by
  rw [countOcc, Finset.card_filter]

theorem sum_eq_of_eq_except {s : Finset Nat} {f g : Nat → Nat} {i : Nat} (hi : i ∈ s)
    (h : ∀ j ∈ s, j ≠ i → f j = g j) :
    (∑ j ∈ s, f j) + g i = (∑ j ∈ s, g j) + f i := by
  rw [← Finset.add_sum_erase s f hi, ← Finset.add_sum_erase s g hi]
  have he : ∑ j ∈ s.erase i, f j = ∑ j ∈ s.erase i, g j :=
    Finset.sum_congr rfl
      (fun j hj => h j (Finset.mem_of_mem_erase hj) (Finset.ne_of_mem_erase hj))
  omega

/-- The one-slot counting equation for `countOcc`. -/
theorem countOcc_setBucket (t : Table V) (i : Nat) (b : Bucket V) (hi : i < t.cap) :
    countOcc (t.setBucket i b) + (if (t.getBucket i).md.isOccupied = true then 1 else 0) =
      countOcc t + (if b.md.isOccupied = true then 1 else 0) := by
  have hne : ∀ j ∈ Finset.range t.cap, j ≠ i →
      (if ((t.setBucket i b).getBucket j).md.isOccupied = true then 1 else 0) =
        (if (t.getBucket j).md.isOccupied = true then 1 else 0) := by
    intro j _ hj
    rw [Table.getBucket_setBucket_ne t i j b (fun he => hj he.symm)]
  have hmain := sum_eq_of_eq_except (Finset.mem_range.mpr hi) hne
  simp only [Table.getBucket_setBucket_self t i b hi] at hmain
  rw [countOcc_eq_sum, countOcc_eq_sum, Table.cap_setBucket]
  omega

theorem countOcc_le_cap (t : Table V) : countOcc t ≤ t.cap := by
  calc countOcc t ≤ (Finset.range t.cap).card := Finset.card_filter_le _ _
  _ = t.cap := Finset.card_range _

theorem countOcc_lt_exists_free (t : Table V) (h : countOcc t < t.cap) :
    ∃ j, j < t.cap ∧ (t.getBucket j).md.isOccupied = false := by
  by_contra hno
  push_neg at hno
  have hall : ∀ j ∈ Finset.range t.cap, (t.getBucket j).md.isOccupied = true := by
    intro j hj
    have := hno j (Finset.mem_range.mp hj)
    cases hb : (t.getBucket j).md.isOccupied
    · exact absurd hb this
    · rfl
  have : countOcc t = t.cap := by
    rw [countOcc, Finset.filter_true_of_mem hall, Finset.card_range]
  omega

theorem countOcc_full_all_occ (t : Table V) (h : t.cap ≤ countOcc t) {j : Nat}
    (hj : j < t.cap) : (t.getBucket j).md.isOccupied = true := by
  by_contra hno
  have hsub : (Finset.range t.cap).filter
      (fun i => (t.getBucket i).md.isOccupied = true) ⊆ (Finset.range t.cap).erase j := by
    intro x hx
    rw [Finset.mem_filter] at hx
    rw [Finset.mem_erase]
    refine ⟨fun he => ?_, hx.1⟩
    subst he
    exact hno hx.2
  have hcard := Finset.card_le_card hsub
  rw [Finset.card_erase_of_mem (Finset.mem_range.mpr hj), Finset.card_range] at hcard
  rw [countOcc] at h
  omega

end InvLemmas

/-! ### Characterization of the lookup and the free-slot scan -/

section FindLemmas

variable {K V : Type} [DecidableEq K] [Inhabited V]
variable {hash : K → Nat} {getKey : V → K}

theorem findInArray_zero_cap {t : Table V} (hc : t.cap = 0) (k : K) (hh : Nat) :
    findInArray getKey t k hh = none := by
  rw [findInArray, if_pos hc]

theorem findInArray_some_spec {t : Table V} (h : InvCore hash getKey t) {k : K} {hh j : Nat}
    (hf : findInArray getKey t k hh = some j) :
    j < t.cap ∧ (t.getBucket j).md.origin ≠ 0 ∧
      ∃ v, (t.getBucket j).value = some v ∧ getKey v = k := by
  simp only [findInArray] at hf
  split at hf
  · cases hf
  · rename_i hc
    split at hf
    · rename_i d heq
      injection hf with hf
      subst hf
      have hcap : 0 < t.cap := by omega
      have hstart : t.clamp hh < t.cap := t.clamp_lt hh hcap
      have hpred := List.find?_some heq
      have hmem := List.mem_of_find?_eq_some heq
      rw [mem_leafList] at hmem
      have hhl : (t.getBucket (t.clamp hh)).md.hasLeaf d = true := hmem
      have hd27 : d < kMaskBits := leaf_lt_kMaskBits h hstart hhl
      obtain ⟨hdc, horig⟩ := invCore_leaf_spec h hstart hd27 hhl
      have hj : t.clamp (t.clamp hh + d) < t.cap := t.clamp_lt _ hcap
      have hocc : (t.getBucket (t.clamp (t.clamp hh + d))).md.origin ≠ 0 := by omega
      obtain ⟨v, hv⟩ := Option.isSome_iff_exists.mp ((invCore_occ_iff_some h hj).mp hocc)
      refine ⟨hj, hocc, v, hv, ?_⟩
      have hk := of_decide_eq_true hpred
      rw [Bucket.get_of_some hv] at hk
      exact hk.symm
    · cases hf

theorem findInArray_none_iff {t : Table V} (h : InvCore hash getKey t) (k : K) :
    findInArray getKey t k (hash k) = none ↔ ¬HasKey getKey t k := by
  constructor
  · rintro hf ⟨i, hi, v, hv, hkey⟩
    simp only [findInArray] at hf
    split at hf
    · omega
    · rename_i hc
      have hcap : 0 < t.cap := by omega
      have hocc : (t.getBucket i).md.origin ≠ 0 :=
        (invCore_occ_iff_some h hi).mpr (by rw [hv]; rfl)
      obtain ⟨hδc, hleaf, hhash⟩ := invCore_origin_spec h hi hocc
      have hget : (t.getBucket i).get = v := Bucket.get_of_some hv
      rw [hget, hkey] at hhash
      split at hf
      · cases hf
      · rename_i heq
        have hback : t.clamp (t.clamp (hash k) +
            ((t.getBucket i).md.origin - 1)) = i := by
          rw [hhash]
          exact t.clamp_clampSub_add hi (by omega)
        have hmem : ((t.getBucket i).md.origin - 1) ∈
            leafList (t.getBucket (t.clamp (hash k))).md := by
          rw [mem_leafList, hhash]
          exact hleaf
        have hnone := List.find?_eq_none.mp heq _ hmem
        apply hnone
        rw [decide_eq_true_iff, hback, hget, hkey]
  · intro hnk
    cases hf : findInArray getKey t k (hash k) with
    | none => rfl
    | some j =>
      obtain ⟨hj, _, v, hv, hkey⟩ := findInArray_some_spec h hf
      exact absurd ⟨j, hj, v, hv, hkey⟩ hnk

theorem scanFree_some_spec {t : Table V} {origin f : Nat} (ho : origin < t.cap)
    (hs : scanFree t origin = some f) :
    f < t.cap ∧ (t.getBucket f).md.isOccupied = false ∧
      t.distance origin f < min MaxAddDistance t.cap := by
  rw [scanFree, Option.map_eq_some'] at hs
  obtain ⟨i, hfind, rfl⟩ := hs
  have hcap : 0 < t.cap := by omega
  have hp := List.find?_some hfind
  have hmem := List.mem_of_find?_eq_some hfind
  rw [List.mem_range] at hmem
  have hi : i < t.cap := lt_of_lt_of_le hmem (min_le_right _ _)
  have hd : t.distance origin (t.clamp (origin + i)) = i := t.distance_clamp_add ho hi
  rw [Bool.not_eq_true'] at hp
  exact ⟨t.clamp_lt _ hcap, hp, by omega⟩

theorem scanFree_isSome_of_free {t : Table V} {origin : Nat} (hcap : t.cap ≤ MaxAddDistance)
    (ho : origin < t.cap)
    (hex : ∃ j, j < t.cap ∧ (t.getBucket j).md.isOccupied = false) :
    ∃ f, scanFree t origin = some f := by
  obtain ⟨j, hj, hocc⟩ := hex
  have hmin : min MaxAddDistance t.cap = t.cap := by omega
  have hsome : ((List.range (min MaxAddDistance t.cap)).find?
      (fun i => !(t.getBucket (t.clamp (origin + i))).md.isOccupied)).isSome = true := by
    rw [List.find?_isSome]
    refine ⟨t.distance origin j, ?_, ?_⟩
    · rw [List.mem_range, hmin]
      exact t.distance_lt ho hj
    · rw [t.clamp_add_distance ho hj, hocc]
      rfl
  obtain ⟨i, hi⟩ := Option.isSome_iff_exists.mp hsome
  exact ⟨t.clamp (origin + i), by rw [scanFree, hi]; rfl⟩

theorem scanFree_none_of_full {t : Table V} {origin : Nat} (hc : 0 < t.cap)
    (hfull : ∀ j, j < t.cap → (t.getBucket j).md.isOccupied = true) :
    scanFree t origin = none := by
  rw [scanFree]
  have hnone : (List.range (min MaxAddDistance t.cap)).find?
      (fun i => !(t.getBucket (t.clamp (origin + i))).md.isOccupied) = none := by
    rw [List.find?_eq_none]
    intro i _
    rw [hfull (t.clamp (origin + i)) (t.clamp_lt _ hc)]
    simp
  rw [hnone]
  rfl

end FindLemmas

/-! ### Counting corollaries for single-slot surgery -/

section CountLemmas

variable {V : Type} [Inhabited V]

theorem isOccupied_setOrigin (md : BucketMetadata) (d : Nat) (hd : d < kMaskBits) :
    (md.setOrigin d).isOccupied = true := by
  rw [isOccupied_true_iff, origin_setOrigin md d hd]
  omega

theorem isOccupied_clearOrigin (md : BucketMetadata) : md.clearOrigin.isOccupied = false := rfl

theorem countOcc_modifyMd_same (t : Table V) (i : Nat) (f : BucketMetadata → BucketMetadata)
    (hi : i < t.cap)
    (hpres : (f (t.getBucket i).md).isOccupied = (t.getBucket i).md.isOccupied) :
    countOcc (t.modifyMd i f) = countOcc t := by
  have h := countOcc_setBucket t i { t.getBucket i with md := f (t.getBucket i).md } hi
  have hmd : ({ t.getBucket i with md := f (t.getBucket i).md } : Bucket V).md =
      f (t.getBucket i).md := rfl
  rw [hmd, hpres] at h
  rw [Table.modifyMd]
  omega

theorem countOcc_setValue_eq (t : Table V) (i : Nat) (v : Option V) (hi : i < t.cap) :
    countOcc (t.setValue i v) = countOcc t := by
  have h := countOcc_setBucket t i { t.getBucket i with value := v } hi
  have hmd : ({ t.getBucket i with value := v } : Bucket V).md = (t.getBucket i).md := rfl
  rw [hmd] at h
  rw [Table.setValue]
  omega

theorem countOcc_modifyMd_occupy (t : Table V) (i : Nat) (f : BucketMetadata → BucketMetadata)
    (hi : i < t.cap) (hold : (t.getBucket i).md.isOccupied = false)
    (hnew : (f (t.getBucket i).md).isOccupied = true) :
    countOcc (t.modifyMd i f) = countOcc t + 1 := by
  have h := countOcc_setBucket t i { t.getBucket i with md := f (t.getBucket i).md } hi
  have hmd : ({ t.getBucket i with md := f (t.getBucket i).md } : Bucket V).md =
      f (t.getBucket i).md := rfl
  rw [hmd, hold, hnew] at h
  rw [Table.modifyMd]
  have hfalse : (if (false : Bool) = true then (1 : Nat) else 0) = 0 := rfl
  have htrue : (if (true : Bool) = true then (1 : Nat) else 0) = 1 := rfl
  rw [hfalse, htrue] at h
  omega

theorem countOcc_modifyMd_release (t : Table V) (i : Nat) (f : BucketMetadata → BucketMetadata)
    (hi : i < t.cap) (hold : (t.getBucket i).md.isOccupied = true)
    (hnew : (f (t.getBucket i).md).isOccupied = false) :
    countOcc (t.modifyMd i f) + 1 = countOcc t := by
  have h := countOcc_setBucket t i { t.getBucket i with md := f (t.getBucket i).md } hi
  have hmd : ({ t.getBucket i with md := f (t.getBucket i).md } : Bucket V).md =
      f (t.getBucket i).md := rfl
  rw [hmd, hold, hnew] at h
  rw [Table.modifyMd]
  have hfalse : (if (false : Bool) = true then (1 : Nat) else 0) = 0 := rfl
  have htrue : (if (true : Bool) = true then (1 : Nat) else 0) = 1 := rfl
  rw [hfalse, htrue] at h
  omega

theorem hasLeaf_congr {md md' : BucketMetadata} (h : md.mask = md'.mask) (j : Nat) :
    md.hasLeaf j = md'.hasLeaf j := by
  rw [BucketMetadata.hasLeaf, BucketMetadata.hasLeaf, h]

theorem countOcc_eq_of_two_point {V : Type} [Inhabited V] {t t' : Table V} (hcap : t'.cap = t.cap)
    {a b : Nat} (ha : a < t.cap) (hb : b < t.cap) (hab : a ≠ b)
    (hocc_a : (t'.getBucket a).md.isOccupied = true)
    (hocc_a' : (t.getBucket a).md.isOccupied = false)
    (hocc_b : (t'.getBucket b).md.isOccupied = false)
    (hocc_b' : (t.getBucket b).md.isOccupied = true)
    (hother : ∀ j, j < t.cap → j ≠ a → j ≠ b →
      (t'.getBucket j).md.isOccupied = (t.getBucket j).md.isOccupied) :
    countOcc t' = countOcc t := by
  rw [countOcc_eq_sum, countOcc_eq_sum, hcap]
  have hmem_a : a ∈ Finset.range t.cap := Finset.mem_range.mpr ha
  have hmem_b : b ∈ (Finset.range t.cap).erase a :=
    Finset.mem_erase.mpr ⟨fun he => hab he.symm, Finset.mem_range.mpr hb⟩
  rw [← Finset.add_sum_erase _ _ hmem_a, ← Finset.add_sum_erase _ _ hmem_b]
  conv_rhs => rw [← Finset.add_sum_erase _ _ hmem_a, ← Finset.add_sum_erase _ _ hmem_b]
  have hS : ∑ j ∈ ((Finset.range t.cap).erase a).erase b,
        (if (t'.getBucket j).md.isOccupied = true then 1 else 0) =
      ∑ j ∈ ((Finset.range t.cap).erase a).erase b,
        (if (t.getBucket j).md.isOccupied = true then 1 else 0) := by
    refine Finset.sum_congr rfl (fun j hj => ?_)
    have hj1 := Finset.ne_of_mem_erase hj
    have hj2 := Finset.ne_of_mem_erase (Finset.mem_of_mem_erase hj)
    have hj3 := Finset.mem_range.mp (Finset.mem_of_mem_erase (Finset.mem_of_mem_erase hj))
    rw [hother j hj3 hj2 hj1]
  rw [hS, hocc_a, hocc_a', hocc_b, hocc_b']
  have hfalse : (if (false : Bool) = true then (1 : Nat) else 0) = 0 := rfl
  have htrue : (if (true : Bool) = true then (1 : Nat) else 0) = 1 := rfl
  rw [hfalse, htrue]
  omega

end CountLemmas

/-! ### The hop-swap of `FindCloserFreeBucket` -/

section FindCloser

variable {K V : Type} [DecidableEq K] [Inhabited V]
variable {hash : K → Nat} {getKey : V → K}

/-- Effect of one successful swap of `FindCloserFreeBucket`: starting from a
table satisfying the metadata invariant with a free slot `free`, moving the
payload of the leaf slot `n = Clamp(moved + δ)` of `moved = Clamp(free - dist)`
into `free` preserves the invariant, the key set, the live count, `size_` and
the capacity, and leaves `n = Clamp(free - (dist - δ))` as the new free slot. -/
theorem findCloser_swap_spec {t t1 t2 : Table V} {free dd δ n : Nat}
    (h : InvCore hash getKey t) (hf : free < t.cap)
    (hocc : (t.getBucket free).md.isOccupied = false)
    (hdd1 : 1 ≤ dd) (hddc : dd < t.cap) (hdd27 : dd < kMaskBits)
    (hleafδ : (t.getBucket (t.clampSub free dd)).md.hasLeaf δ = true) (hδ : δ < dd)
    (hn : n = t.clamp (t.clampSub free dd + δ))
    (ht1 : t1 = t.modifyMd (t.clampSub free dd) (fun md => (md.setLeaf dd).clearLeaf δ))
    (ht2 : t2 = (((t1.setValue n none).setValue free ((t1.getBucket n).value)).modifyMd free
      (fun md => md.setOrigin dd)).modifyMd n (fun md => md.clearOrigin)) :
    InvCore hash getKey t2 ∧ t2.cap = t.cap ∧ t2.size = t.size ∧ n < t.cap ∧
      (t2.getBucket n).md.isOccupied = false ∧
      (∀ κ, HasKey getKey t2 κ ↔ HasKey getKey t κ) ∧
      countOcc t2 = countOcc t ∧ n = t.clampSub free (dd - δ) := by
  have hc : 0 < t.cap := by omega
  set moved := t.clampSub free dd with hmoved_def
  have hmoved : moved < t.cap := t.clampSub_lt free dd hc
  have hδ27 : δ < kMaskBits := by omega
  obtain ⟨hδcap, hno⟩ := invCore_leaf_spec h hmoved hδ27 hleafδ
  rw [← hn] at hno
  have hn_lt : n < t.cap := by rw [hn]; exact t.clamp_lt _ hc
  have hnocc : (t.getBucket n).md.origin ≠ 0 := by omega
  obtain ⟨w, hw⟩ := Option.isSome_iff_exists.mp ((invCore_occ_iff_some h hn_lt).mp hnocc)
  have hfo : (t.getBucket free).md.origin = 0 := (isOccupied_false_iff _).mp hocc
  have hn_ne_free : n ≠ free := by intro he; rw [he] at hno; omega
  have hfree_val : (t.getBucket free).value = none := by
    cases hv : (t.getBucket free).value with
    | none => rfl
    | some x =>
      have := (invCore_occ_iff_some h hf).mpr (by rw [hv]; rfl)
      omega
  have hdm : t.distance moved free = dd := t.distance_clampSub hf hddc
  have hmoved_ne_free : moved ≠ free := by
    intro he; rw [he, t.distance_self] at hdm; omega
  have hsub : n = t.clampSub free (dd - δ) := by
    rw [hn, hmoved_def]; exact t.clampSub_eq_clampSub_sub hf (by omega) hδ
  -- capacities and sizes
  have hcap1 : t1.cap = t.cap := by rw [ht1, Table.cap_modifyMd]
  set ta := t1.setValue n none with hta
  set tb := ta.setValue free ((t1.getBucket n).value) with htb
  set tc := tb.modifyMd free (fun md => md.setOrigin dd) with htc
  have hcapa : ta.cap = t.cap := by rw [hta, Table.cap_setValue, hcap1]
  have hcapb : tb.cap = t.cap := by rw [htb, Table.cap_setValue, hcapa]
  have hcapc : tc.cap = t.cap := by rw [htc, Table.cap_modifyMd, hcapb]
  have hcap2 : t2.cap = t.cap := by rw [ht2, Table.cap_modifyMd, hcapc]
  have hsize2 : t2.size = t.size := by
    rw [ht2, htc, htb, hta, ht1]
    simp only [Table.size_modifyMd, Table.size_setValue]
  have hclamp2 : ∀ x, t2.clamp x = t.clamp x := fun x => by
    rw [Table.clamp, Table.clamp, hcap2]
  have hclampSub2 : ∀ a b, t2.clampSub a b = t.clampSub a b := fun a b => by
    rw [Table.clampSub, Table.clampSub, hcap2]
  -- slot contents of t1
  have ht1_moved_md : (t1.getBucket moved).md =
      ((t.getBucket moved).md.setLeaf dd).clearLeaf δ := by
    rw [ht1, Table.getBucket_modifyMd_self t moved _ hmoved]
  have ht1_moved_val : (t1.getBucket moved).value = (t.getBucket moved).value := by
    rw [ht1, Table.getBucket_modifyMd_self t moved _ hmoved]
  have ht1_other : ∀ j, j ≠ moved → t1.getBucket j = t.getBucket j := by
    intro j hj
    rw [ht1]; exact Table.getBucket_modifyMd_ne t moved j _ (fun he => hj he.symm)
  have ht1_n_val : (t1.getBucket n).value = some w := by
    by_cases hnm : n = moved
    · rw [hnm, ht1_moved_val, ← hnm, hw]
    · rw [ht1_other n hnm, hw]
  -- slot contents of the intermediate tables
  have hta_n : ta.getBucket n = { t1.getBucket n with value := none } := by
    rw [hta]; exact Table.getBucket_setValue_self t1 n none (by omega)
  have hta_other : ∀ j, j ≠ n → ta.getBucket j = t1.getBucket j := by
    intro j hj
    rw [hta]; exact Table.getBucket_setValue_ne t1 n j none (fun he => hj he.symm)
  have htb_free : tb.getBucket free = { ta.getBucket free with value := (t1.getBucket n).value } := by
    rw [htb]; exact Table.getBucket_setValue_self ta free _ (by omega)
  have htb_other : ∀ j, j ≠ free → tb.getBucket j = ta.getBucket j := by
    intro j hj
    rw [htb]; exact Table.getBucket_setValue_ne ta free j _ (fun he => hj he.symm)
  have htc_free : tc.getBucket free =
      { tb.getBucket free with md := (tb.getBucket free).md.setOrigin dd } := by
    rw [htc]; exact Table.getBucket_modifyMd_self tb free _ (by omega)
  have htc_other : ∀ j, j ≠ free → tc.getBucket j = tb.getBucket j := by
    intro j hj
    rw [htc]; exact Table.getBucket_modifyMd_ne tb free j _ (fun he => hj he.symm)
  have ht2_n : t2.getBucket n = { tc.getBucket n with md := (tc.getBucket n).md.clearOrigin } := by
    rw [ht2]; exact Table.getBucket_modifyMd_self tc n _ (by omega)
  have ht2_other : ∀ j, j ≠ n → t2.getBucket j = tc.getBucket j := by
    intro j hj
    rw [ht2]; exact Table.getBucket_modifyMd_ne tc n j _ (fun he => hj he.symm)
  -- final field-level characterization
  have hB_free : t2.getBucket free = ⟨(t.getBucket free).md.setOrigin dd, some w⟩ := by
    rw [ht2_other free (fun he => hn_ne_free he.symm), htc_free, htb_free,
      hta_other free (fun he => hn_ne_free he.symm),
      ht1_other free (fun he => hmoved_ne_free he.symm), ht1_n_val]
  have hB_n : t2.getBucket n = ⟨(t1.getBucket n).md.clearOrigin, none⟩ := by
    rw [ht2_n, htc_other n hn_ne_free, htb_other n hn_ne_free, hta_n]
  have hB_other : ∀ j, j ≠ free → j ≠ n → t2.getBucket j = t1.getBucket j := by
    intro j hjf hjn
    rw [ht2_other j hjn, htc_other j hjf, htb_other j hjf, hta_other j hjn]
  have horig_free : (t2.getBucket free).md.origin = dd + 1 := by
    rw [hB_free]; exact origin_setOrigin _ dd hdd27
  have hval_free : (t2.getBucket free).value = some w := by rw [hB_free]
  have hval_n : (t2.getBucket n).value = none := by rw [hB_n]
  have horig_n : (t2.getBucket n).md.origin = 0 := by rw [hB_n]; rfl
  have hval_other : ∀ j, j ≠ free → j ≠ n → (t2.getBucket j).value = (t.getBucket j).value := by
    intro j hjf hjn
    rw [hB_other j hjf hjn]
    by_cases hjm : j = moved
    · rw [hjm, ht1_moved_val]
    · rw [ht1_other j hjm]
  have horig_other : ∀ j, j ≠ free → j ≠ n →
      (t2.getBucket j).md.origin = (t.getBucket j).md.origin := by
    intro j hjf hjn
    rw [hB_other j hjf hjn]
    by_cases hjm : j = moved
    · rw [hjm, ht1_moved_md]; rfl
    · rw [ht1_other j hjm]
  have hmask_moved : (t2.getBucket moved).md.mask =
      (((t.getBucket moved).md.setLeaf dd).clearLeaf δ).mask := by
    by_cases hnm : n = moved
    · rw [← hnm, hB_n, hnm, ht1_moved_md]
      rfl
    · rw [hB_other moved hmoved_ne_free (fun he => hnm he.symm), ht1_moved_md]
  have hmask_other : ∀ j, j ≠ moved → (t2.getBucket j).md.mask = (t.getBucket j).md.mask := by
    intro j hjm
    by_cases hjf : j = free
    · subst hjf
      rw [hB_free]
      rfl
    · by_cases hjn : j = n
      · subst hjn
        rw [hB_n]
        show (t1.getBucket j).md.clearOrigin.mask = (t.getBucket j).md.mask
        rw [mask_clearOrigin, ht1_other j hjm]
      · rw [hB_other j hjf hjn, ht1_other j hjm]
  have hhasLeaf_moved : ∀ j, (t2.getBucket moved).md.hasLeaf j =
      (((t.getBucket moved).md.hasLeaf j || decide (j = dd)) && !decide (j = δ)) := by
    intro j
    rw [hasLeaf_congr hmask_moved j,
      hasLeaf_clearLeaf ((t.getBucket moved).md.setLeaf dd) δ j
        (mask_setLeaf_lt (t.getBucket moved).md dd),
      hasLeaf_setLeaf (t.getBucket moved).md dd j (invCore_mask_lt h hmoved) hdd27]
  have hocc2_free : (t2.getBucket free).md.isOccupied = true := by
    rw [isOccupied_true_iff, horig_free]
    omega
  have hocc2_n : (t2.getBucket n).md.isOccupied = false := by
    rw [isOccupied_false_iff, horig_n]
  have hocc2_other : ∀ j, j < t.cap → j ≠ free → j ≠ n →
      (t2.getBucket j).md.isOccupied = (t.getBucket j).md.isOccupied := by
    intro j _ hjf hjn
    rw [BucketMetadata.isOccupied, BucketMetadata.isOccupied, horig_other j hjf hjn]
  have hcount : countOcc t2 = countOcc t :=
    countOcc_eq_of_two_point hcap2 hf hn_lt (fun he => hn_ne_free he.symm) hocc2_free hocc
      hocc2_n ((isOccupied_true_iff _).mpr hnocc) hocc2_other
  have hkey_iff : ∀ κ, HasKey getKey t2 κ ↔ HasKey getKey t κ := by
    intro κ
    constructor
    · rintro ⟨i, hi, v', hv', hk⟩
      rw [hcap2] at hi
      by_cases hif : i = free
      · subst hif
        rw [hval_free] at hv'
        injection hv' with hv'
        subst hv'
        exact ⟨n, hn_lt, w, hw, hk⟩
      · by_cases hin : i = n
        · subst hin
          rw [hval_n] at hv'
          cases hv'
        · rw [hval_other i hif hin] at hv'
          exact ⟨i, hi, v', hv', hk⟩
    · rintro ⟨i, hi, v', hv', hk⟩
      by_cases hin : i = n
      · subst hin
        rw [hw] at hv'
        injection hv' with hv'
        subst hv'
        exact ⟨free, by omega, w, hval_free, hk⟩
      · by_cases hif : i = free
        · subst hif
          rw [hfree_val] at hv'
          cases hv'
        · refine ⟨i, by omega, v', ?_, hk⟩
          rw [hval_other i hif hin]
          exact hv'
  have hinv2 : InvCore hash getKey t2 := by
    constructor
    · intro i hi
      rw [hcap2] at hi
      by_cases hif : i = free
      · subst hif
        refine ⟨?_, ?_, ?_, ?_⟩
        · rw [hmask_other i (fun he => hmoved_ne_free he.symm)]
          exact invCore_mask_lt h hf
        · rw [horig_free]
          have hk27 : kMaskBits = 27 := rfl
          omega
        · constructor
          · intro _
            rw [hval_free]
            rfl
          · intro _
            rw [horig_free]
            omega
        · intro _
          rw [horig_free]
          simp only [Nat.add_sub_cancel]
          refine ⟨by rw [hcap2]; omega, ?_, ?_⟩
          · rw [hclampSub2, ← hmoved_def, hhasLeaf_moved dd]
            have h1 : decide (dd = dd) = true := by simp
            have h2 : decide (dd = δ) = false := decide_eq_false (by omega)
            rw [h1, h2]
            simp
          · rw [hclamp2, hclampSub2, ← hmoved_def, Bucket.get_of_some hval_free]
            obtain ⟨_, _, hhash_n⟩ := invCore_origin_spec h hn_lt hnocc
            have hδn : (t.getBucket n).md.origin - 1 = δ := by omega
            rw [hδn, Bucket.get_of_some hw] at hhash_n
            rw [hhash_n, hn]
            exact leaf_origin_recover t hmoved hδcap
      · by_cases hin : i = n
        · subst hin
          refine ⟨?_, ?_, ?_, ?_⟩
          · by_cases hnm : i = moved
            · rw [hnm, hmask_moved]
              exact mask_clearLeaf_lt _ δ
            · rw [hmask_other i hnm]
              exact invCore_mask_lt h hn_lt
          · rw [horig_n]
            exact Nat.zero_le _
          · constructor
            · intro h0
              rw [horig_n] at h0
              exact absurd rfl h0
            · intro hs
              rw [hval_n] at hs
              cases hs
          · intro h0
            rw [horig_n] at h0
            exact absurd rfl h0
        · -- i is neither the free slot nor the moved-out leaf slot
          refine ⟨?_, ?_, ?_, ?_⟩
          · by_cases him : i = moved
            · rw [him, hmask_moved]
              exact mask_clearLeaf_lt _ δ
            · rw [hmask_other i him]
              exact invCore_mask_lt h hi
          · rw [horig_other i hif hin]
            exact invCore_origin_le h hi
          · rw [horig_other i hif hin, hval_other i hif hin]
            exact (h.1 i hi).2.2.1
          · intro h0
            rw [horig_other i hif hin] at h0 ⊢
            obtain ⟨ho1, ho2, ho3⟩ := invCore_origin_spec h hi h0
            refine ⟨by rw [hcap2]; exact ho1, ?_, ?_⟩
            · rw [hclampSub2]
              by_cases hbm : t.clampSub i ((t.getBucket i).md.origin - 1) = moved
              · rw [hbm, hhasLeaf_moved]
                rw [hbm] at ho2
                have hδmδ : decide ((t.getBucket i).md.origin - 1 = δ) = false := by
                  refine decide_eq_false ?_
                  intro he
                  have h1 : t.clamp (t.clampSub i ((t.getBucket i).md.origin - 1) +
                      ((t.getBucket i).md.origin - 1)) = i :=
                    t.clamp_clampSub_add hi (by omega)
                  rw [hbm, he, ← hn] at h1
                  exact hin h1.symm
                rw [ho2, hδmδ]
                simp
              · rw [hasLeaf_congr (hmask_other _ hbm)]
                exact ho2
            · rw [hclamp2, hclampSub2]
              have hgeq : (t2.getBucket i).get = (t.getBucket i).get := by
                rw [Bucket.get, Bucket.get, hval_other i hif hin]
              rw [hgeq]
              exact ho3
    · intro b hb δ' hδ'27 hl2
      rw [hcap2] at hb
      rw [hclamp2]
      by_cases hbm : b = moved
      · rw [hbm] at hl2 ⊢
        rw [hhasLeaf_moved δ'] at hl2
        rw [Bool.and_eq_true, Bool.or_eq_true, Bool.not_eq_true', decide_eq_false_iff_not] at hl2
        obtain ⟨hor, hne_δ⟩ := hl2
        by_cases hδdd : δ' = dd
        · subst hδdd
          constructor
          · rw [hcap2]
            omega
          · have htgt : t.clamp (moved + δ') = free := by
              rw [hmoved_def]
              exact t.clamp_clampSub_add hf (by omega)
            rw [htgt, horig_free]
        · have hold : (t.getBucket moved).md.hasLeaf δ' = true := by
            rcases hor with h1 | h1
            · exact h1
            · rw [decide_eq_true_eq] at h1
              exact absurd h1 hδdd
          obtain ⟨hδ'c, htno⟩ := invCore_leaf_spec h hmoved hδ'27 hold
          refine ⟨by rw [hcap2]; exact hδ'c, ?_⟩
          have htn : t.clamp (moved + δ') ≠ n := by
            intro he
            rw [he] at htno
            have : δ' = δ := by omega
            exact hne_δ this
          have htf : t.clamp (moved + δ') ≠ free := by
            intro he
            rw [he] at htno
            omega
          rw [horig_other _ htf htn]
          exact htno
      · rw [hasLeaf_congr (hmask_other b hbm) δ'] at hl2
        obtain ⟨hδ'c, htno⟩ := invCore_leaf_spec h hb hδ'27 hl2
        refine ⟨by rw [hcap2]; exact hδ'c, ?_⟩
        have htn : t.clamp (b + δ') ≠ n := by
          intro he
          rw [he] at htno
          have hδ'δ : δ' = δ := by omega
          have hrec : t.clampSub (t.clamp (b + δ')) δ' = b := leaf_origin_recover t hb hδ'c
          rw [he, hδ'δ, hn] at hrec
          rw [leaf_origin_recover t hmoved hδcap] at hrec
          exact hbm hrec.symm
        have htf : t.clamp (b + δ') ≠ free := by
          intro he
          rw [he] at htno
          omega
        rw [horig_other _ htf htn]
        exact htno
  exact ⟨hinv2, hcap2, hsize2, hn_lt, hocc2_n, hkey_iff, hcount, hsub⟩

theorem findCloserAux_none {t : Table V} {free : Nat} :
    ∀ {dist : Nat} {t' : Table V}, findCloserAux t free dist = (t', none) → t' = t := by
  intro dist
  induction dist with
  | zero =>
    intro t' h
    rw [findCloserAux] at h
    injection h with h1 h2
    exact h1.symm
  | succ d ih =>
    intro t' h
    simp only [findCloserAux] at h
    split at h
    · exact ih h
    · split at h
      · exact ih h
      · injection h with h1 h2
        cases h2

theorem hasKey_modifyMd {t : Table V} {i : Nat} {f : BucketMetadata → BucketMetadata}
    (hi : i < t.cap) (κ : K) :
    HasKey getKey (t.modifyMd i f) κ ↔ HasKey getKey t κ := by
  have hcap : (t.modifyMd i f).cap = t.cap := Table.cap_modifyMd ..
  constructor
  · rintro ⟨j, hj, v, hv, hk⟩
    rw [hcap] at hj
    refine ⟨j, hj, v, ?_, hk⟩
    by_cases hji : j = i
    · subst hji
      rw [Table.getBucket_modifyMd_self t j f hi] at hv
      exact hv
    · rw [Table.getBucket_modifyMd_ne t i j f (fun he => hji he.symm)] at hv
      exact hv
  · rintro ⟨j, hj, v, hv, hk⟩
    refine ⟨j, by omega, v, ?_, hk⟩
    by_cases hji : j = i
    · subst hji
      rw [Table.getBucket_modifyMd_self t j f hi]
      exact hv
    · rw [Table.getBucket_modifyMd_ne t i j f (fun he => hji he.symm)]
      exact hv

theorem findCloserAux_some {t : Table V} {free : Nat} :
    ∀ {dist : Nat} {t' : Table V} {nf : Nat}, InvCore hash getKey t → free < t.cap →
    (t.getBucket free).md.isOccupied = false → dist < t.cap → dist < kMaskBits →
    findCloserAux t free dist = (t', some nf) →
    InvCore hash getKey t' ∧ t'.cap = t.cap ∧ t'.size = t.size ∧ nf < t.cap ∧
      (t'.getBucket nf).md.isOccupied = false ∧
      (∀ κ, HasKey getKey t' κ ↔ HasKey getKey t κ) ∧
      countOcc t' = countOcc t ∧
      ∃ m, 1 ≤ m ∧ m ≤ dist ∧ nf = t.clampSub free m := by
  intro dist
  induction dist with
  | zero =>
    intro t' nf _ _ _ _ _ h
    rw [findCloserAux] at h
    injection h with h1 h2
    cases h2
  | succ d ih =>
    intro t' nf hInv hf hocc hdc hd27 h
    simp only [findCloserAux] at h
    split at h
    · obtain ⟨a1, a2, a3, a4, a5, a6, a7, m, hm1, hm2, hm3⟩ :=
        ih hInv hf hocc (by omega) (by omega) h
      exact ⟨a1, a2, a3, a4, a5, a6, a7, m, hm1, by omega, hm3⟩
    · rename_i δ hfl
      split at h
      · obtain ⟨a1, a2, a3, a4, a5, a6, a7, m, hm1, hm2, hm3⟩ :=
          ih hInv hf hocc (by omega) (by omega) h
        exact ⟨a1, a2, a3, a4, a5, a6, a7, m, hm1, by omega, hm3⟩
      · rename_i hgt
        injection h with h1 h2
        injection h2 with h2
        subst h1
        subst h2
        have hleafδ : (t.getBucket (t.clampSub free (d + 1))).md.hasLeaf δ = true :=
          (firstLeaf_some _ δ hfl).1
        obtain ⟨b1, b2, b3, b4, b5, b6, b7, bsub⟩ :=
          findCloser_swap_spec hInv hf hocc (by omega) (by omega) (by omega) hleafδ
            (by omega) rfl rfl rfl
        exact ⟨b1, b2, b3, b4, b5, b6, b7, d + 1 - δ, by omega, by omega, bsub⟩

theorem findCloserFreeBucket_none {t t' : Table V} {free : Nat}
    (h : findCloserFreeBucket t free = (t', none)) : t' = t :=
  findCloserAux_none h

theorem findCloserFreeBucket_some {t t' : Table V} {free nf : Nat}
    (hInv : InvCore hash getKey t) (hf : free < t.cap)
    (hocc : (t.getBucket free).md.isOccupied = false) (hcap : kMaskBits ≤ t.cap)
    (h : findCloserFreeBucket t free = (t', some nf)) :
    InvCore hash getKey t' ∧ t'.cap = t.cap ∧ t'.size = t.size ∧ nf < t.cap ∧
      (t'.getBucket nf).md.isOccupied = false ∧
      (∀ κ, HasKey getKey t' κ ↔ HasKey getKey t κ) ∧
      countOcc t' = countOcc t ∧
      ∃ m, 1 ≤ m ∧ m ≤ kMaskBits - 1 ∧ nf = t.clampSub free m := by
  have hk27 : kMaskBits = 27 := rfl
  exact findCloserAux_some hInv hf hocc (by omega) (by omega) h

/-- Effect of the final placement of `InsertInArray` (setting the leaf bit on
the origin bucket and the origin delta on the free slot) followed by the
caller's placement of the value `v` into that slot. -/
theorem place_spec {t0 tp : Table V} {origin f' fd : Nat}
    (h : InvCore hash getKey t0) (ho : origin < t0.cap) (hf : f' < t0.cap)
    (hocc : (t0.getBucket f').md.isOccupied = false)
    (hfd_def : fd = t0.distance origin f') (hfd : fd < kMaskBits)
    (htp : tp = (t0.modifyMd origin (fun md => md.setLeaf fd)).modifyMd f'
      (fun md => md.setOrigin fd)) :
    ∀ v : V, t0.clamp (hash (getKey v)) = origin →
    InvCore hash getKey (tp.setValue f' (some v)) ∧
      (tp.setValue f' (some v)).cap = t0.cap ∧
      (tp.setValue f' (some v)).size = t0.size ∧
      countOcc (tp.setValue f' (some v)) = countOcc t0 + 1 ∧
      (∀ κ, HasKey getKey (tp.setValue f' (some v)) κ ↔ (HasKey getKey t0 κ ∨ κ = getKey v)) ∧
      ((tp.setValue f' (some v)).getBucket f').value = some v ∧
      (∀ j, j < t0.cap → j ≠ f' →
        ((tp.setValue f' (some v)).getBucket j).value = (t0.getBucket j).value) := by
  intro v hv
  have hfd_cap : fd < t0.cap := by rw [hfd_def]; exact t0.distance_lt ho hf
  set t1p := t0.modifyMd origin (fun md => md.setLeaf fd) with ht1p
  set ts := tp.setValue f' (some v) with hts
  have hcap1 : t1p.cap = t0.cap := Table.cap_modifyMd ..
  have hcap_tp : tp.cap = t0.cap := by rw [htp, Table.cap_modifyMd, hcap1]
  have hcap_ts : ts.cap = t0.cap := by rw [hts, Table.cap_setValue, hcap_tp]
  have hsize_ts : ts.size = t0.size := by
    rw [hts, htp, ht1p]
    simp only [Table.size_modifyMd, Table.size_setValue]
  have hclamp_ts : ∀ x, ts.clamp x = t0.clamp x := fun x => by
    rw [Table.clamp, Table.clamp, hcap_ts]
  have hclampSub_ts : ∀ a b, ts.clampSub a b = t0.clampSub a b := fun a b => by
    rw [Table.clampSub, Table.clampSub, hcap_ts]
  have hfo : (t0.getBucket f').md.origin = 0 := (isOccupied_false_iff _).mp hocc
  have hfree_val : (t0.getBucket f').value = none := by
    cases hvv : (t0.getBucket f').value with
    | none => rfl
    | some x =>
      have := (invCore_occ_iff_some h hf).mpr (by rw [hvv]; rfl)
      omega
  -- slot contents
  have ht1p_origin_md : (t1p.getBucket origin).md = (t0.getBucket origin).md.setLeaf fd := by
    rw [ht1p, Table.getBucket_modifyMd_self t0 origin _ ho]
  have ht1p_other : ∀ j, j ≠ origin → t1p.getBucket j = t0.getBucket j := by
    intro j hj
    rw [ht1p]
    exact Table.getBucket_modifyMd_ne t0 origin j _ (fun he => hj he.symm)
  have htp_f' : tp.getBucket f' =
      { t1p.getBucket f' with md := (t1p.getBucket f').md.setOrigin fd } := by
    rw [htp]
    exact Table.getBucket_modifyMd_self t1p f' _ (by omega)
  have htp_other : ∀ j, j ≠ f' → tp.getBucket j = t1p.getBucket j := by
    intro j hj
    rw [htp]
    exact Table.getBucket_modifyMd_ne t1p f' j _ (fun he => hj he.symm)
  have hts_f' : ts.getBucket f' = { tp.getBucket f' with value := some v } := by
    rw [hts]
    exact Table.getBucket_setValue_self tp f' _ (by omega)
  have hts_other : ∀ j, j ≠ f' → ts.getBucket j = tp.getBucket j := by
    intro j hj
    rw [hts]
    exact Table.getBucket_setValue_ne tp f' j _ (fun he => hj he.symm)
  -- field-level facts
  have hval_f' : (ts.getBucket f').value = some v := by rw [hts_f']
  have horig_f' : (ts.getBucket f').md.origin = fd + 1 := by
    rw [hts_f']
    show (tp.getBucket f').md.origin = fd + 1
    rw [htp_f']
    show ((t1p.getBucket f').md.setOrigin fd).origin = fd + 1
    exact origin_setOrigin _ fd hfd
  have hval_other : ∀ j, j ≠ f' → (ts.getBucket j).value = (t0.getBucket j).value := by
    intro j hj
    rw [hts_other j hj, htp_other j hj]
    by_cases hjo : j = origin
    · subst hjo
      rw [ht1p, Table.getBucket_modifyMd_self t0 j _ ho]
    · rw [ht1p_other j hjo]
  have horig_other : ∀ j, j ≠ f' → (ts.getBucket j).md.origin = (t0.getBucket j).md.origin := by
    intro j hj
    rw [hts_other j hj, htp_other j hj]
    by_cases hjo : j = origin
    · subst hjo
      rw [ht1p, Table.getBucket_modifyMd_self t0 j _ ho]
      rfl
    · rw [ht1p_other j hjo]
  have hmask_o : (ts.getBucket origin).md.mask = ((t0.getBucket origin).md.setLeaf fd).mask := by
    by_cases hfo' : f' = origin
    · rw [← hfo', hts_f']
      show (tp.getBucket f').md.mask = _
      rw [htp_f']
      show ((t1p.getBucket f').md.setOrigin fd).mask = _
      rw [mask_setOrigin, hfo', ht1p_origin_md]
    · rw [hts_other origin (fun he => hfo' he.symm), htp_other origin (fun he => hfo' he.symm),
        ht1p_origin_md]
  have hmask_other : ∀ j, j ≠ origin → (ts.getBucket j).md.mask = (t0.getBucket j).md.mask := by
    intro j hjo
    by_cases hjf : j = f'
    · subst hjf
      rw [hts_f']
      show (tp.getBucket j).md.mask = _
      rw [htp_f']
      show ((t1p.getBucket j).md.setOrigin fd).mask = _
      rw [mask_setOrigin, ht1p_other j hjo]
    · rw [hts_other j hjf, htp_other j hjf, ht1p_other j hjo]
  have hhasLeaf_o : ∀ j, (ts.getBucket origin).md.hasLeaf j =
      ((t0.getBucket origin).md.hasLeaf j || decide (j = fd)) := by
    intro j
    rw [hasLeaf_congr hmask_o j,
      hasLeaf_setLeaf (t0.getBucket origin).md fd j (invCore_mask_lt h ho) hfd]
  have hocc_f' : (ts.getBucket f').md.isOccupied = true := by
    rw [isOccupied_true_iff, horig_f']
    omega
  have hocc_other : ∀ j, j ≠ f' →
      (ts.getBucket j).md.isOccupied = (t0.getBucket j).md.isOccupied := by
    intro j hj
    rw [BucketMetadata.isOccupied, BucketMetadata.isOccupied, horig_other j hj]
  -- counting
  have hcount : countOcc ts = countOcc t0 + 1 := by
    have hc1 : countOcc t1p = countOcc t0 :=
      countOcc_modifyMd_same t0 origin _ ho rfl
    have hocc_t1p_f' : (t1p.getBucket f').md.isOccupied = false := by
      by_cases hfo' : f' = origin
      · rw [hfo', ht1p, Table.getBucket_modifyMd_self t0 origin _ ho]
        show ((t0.getBucket origin).md.setLeaf fd).isOccupied = false
        rw [← hfo']
        exact hocc
      · rw [ht1p_other f' hfo']
        exact hocc
    have hc2 : countOcc tp = countOcc t1p + 1 := by
      rw [htp]
      exact countOcc_modifyMd_occupy t1p f' _ (by omega) hocc_t1p_f'
        (isOccupied_setOrigin _ fd hfd)
    have hc3 : countOcc ts = countOcc tp := by
      rw [hts]
      exact countOcc_setValue_eq tp f' _ (by omega)
    omega
  -- key sets
  have hkey : ∀ κ, HasKey getKey ts κ ↔ (HasKey getKey t0 κ ∨ κ = getKey v) := by
    intro κ
    constructor
    · rintro ⟨i, hi, v', hv', hk⟩
      rw [hcap_ts] at hi
      by_cases hif : i = f'
      · subst hif
        rw [hval_f'] at hv'
        injection hv' with hv'
        subst hv'
        exact Or.inr hk.symm
      · rw [hval_other i hif] at hv'
        exact Or.inl ⟨i, hi, v', hv', hk⟩
    · rintro (⟨i, hi, v', hv', hk⟩ | rfl)
      · by_cases hif : i = f'
        · subst hif
          rw [hfree_val] at hv'
          cases hv'
        · refine ⟨i, by omega, v', ?_, hk⟩
          rw [hval_other i hif]
          exact hv'
      · exact ⟨f', by omega, v, hval_f', rfl⟩
  -- the invariant
  have hbo : t0.clampSub f' fd = origin := by
    rw [hfd_def]
    exact t0.clampSub_distance ho hf
  have htgt : t0.clamp (origin + fd) = f' := by
    rw [hfd_def]
    exact t0.clamp_add_distance ho hf
  have hinv : InvCore hash getKey ts := by
    constructor
    · intro i hi
      rw [hcap_ts] at hi
      by_cases hif : i = f'
      · subst hif
        refine ⟨?_, ?_, ?_, ?_⟩
        · by_cases hfo' : i = origin
          · rw [hfo', hmask_o]
            exact mask_setLeaf_lt _ fd
          · rw [hmask_other i hfo']
            exact invCore_mask_lt h hi
        · rw [horig_f']
          have hk27 : kMaskBits = 27 := rfl
          omega
        · constructor
          · intro _
            rw [hval_f']
            rfl
          · intro _
            rw [horig_f']
            omega
        · intro _
          rw [horig_f']
          simp only [Nat.add_sub_cancel]
          refine ⟨by omega, ?_, ?_⟩
          · rw [hclampSub_ts, hbo, hhasLeaf_o fd]
            have h1 : decide (fd = fd) = true := by simp
            rw [h1]
            simp
          · rw [hclamp_ts, hclampSub_ts, hbo, Bucket.get_of_some hval_f']
            exact hv
      · refine ⟨?_, ?_, ?_, ?_⟩
        · by_cases hio : i = origin
          · rw [hio, hmask_o]
            exact mask_setLeaf_lt _ fd
          · rw [hmask_other i hio]
            exact invCore_mask_lt h hi
        · rw [horig_other i hif]
          exact invCore_origin_le h hi
        · rw [horig_other i hif, hval_other i hif]
          exact (h.1 i hi).2.2.1
        · intro h0
          rw [horig_other i hif] at h0 ⊢
          obtain ⟨ho1, ho2, ho3⟩ := invCore_origin_spec h hi h0
          refine ⟨by omega, ?_, ?_⟩
          · rw [hclampSub_ts]
            by_cases hbo' : t0.clampSub i ((t0.getBucket i).md.origin - 1) = origin
            · rw [hbo', hhasLeaf_o]
              rw [hbo'] at ho2
              rw [ho2]
              simp
            · rw [hasLeaf_congr (hmask_other _ hbo')]
              exact ho2
          · rw [hclamp_ts, hclampSub_ts]
            have hgeq : (ts.getBucket i).get = (t0.getBucket i).get := by
              rw [Bucket.get, Bucket.get, hval_other i hif]
            rw [hgeq]
            exact ho3
    · intro b hb δ' hδ'27 hl2
      rw [hcap_ts] at hb
      rw [hclamp_ts]
      by_cases hbo' : b = origin
      · rw [hbo'] at hl2 ⊢
        rw [hhasLeaf_o δ'] at hl2
        rw [Bool.or_eq_true] at hl2
        rcases hl2 with hold | hnew
        · obtain ⟨hδ'c, htno⟩ := invCore_leaf_spec h ho hδ'27 hold
          refine ⟨by omega, ?_⟩
          have htf : t0.clamp (origin + δ') ≠ f' := by
            intro he
            rw [he] at htno
            omega
          rw [horig_other _ htf]
          exact htno
        · rw [decide_eq_true_eq] at hnew
          subst hnew
          refine ⟨by omega, ?_⟩
          rw [htgt, horig_f']
      · rw [hasLeaf_congr (hmask_other b hbo') δ'] at hl2
        obtain ⟨hδ'c, htno⟩ := invCore_leaf_spec h hb hδ'27 hl2
        refine ⟨by omega, ?_⟩
        have htf : t0.clamp (b + δ') ≠ f' := by
          intro he
          rw [he] at htno
          omega
        rw [horig_other _ htf]
        exact htno
  exact ⟨hinv, hcap_ts, hsize_ts, hcount, hkey, hval_f', fun j _ hj => hval_other j hj⟩

/-- Full characterization of the `do/while` hop loop of `InsertInArray`:
capacity, `size_` and the key set are preserved; on `ARRAY_FULL` the invariant
and live count are intact; on success the final state is exactly the
placement surgery of `place_spec` applied to an invariant-preserving
intermediate state `t0` with the returned slot free in `t0`. -/
theorem hopLoop_spec {origin : Nat} :
    ∀ (fuel : Nat) (t : Table V) (free : Nat) {t' : Table V} {res : Option Nat},
    InvCore hash getKey t → origin < t.cap → free < t.cap →
    (t.getBucket free).md.isOccupied = false →
    hopLoop origin t free fuel = (t', res) →
    t'.cap = t.cap ∧ t'.size = t.size ∧ (∀ κ, HasKey getKey t' κ ↔ HasKey getKey t κ) ∧
      (res = none → InvCore hash getKey t' ∧ countOcc t' = countOcc t) ∧
      (∀ f', res = some f' →
        ∃ t0 : Table V, InvCore hash getKey t0 ∧ t0.cap = t.cap ∧ t0.size = t.size ∧
          (∀ κ, HasKey getKey t0 κ ↔ HasKey getKey t κ) ∧ countOcc t0 = countOcc t ∧
          f' < t.cap ∧ (t0.getBucket f').md.isOccupied = false ∧
          t0.distance origin f' < kMaskBits ∧
          t' = (t0.modifyMd origin (fun md => md.setLeaf (t0.distance origin f'))).modifyMd f'
            (fun md => md.setOrigin (t0.distance origin f'))) := by
  intro fuel
  induction fuel with
  | zero =>
    intro t free t' res hInv ho hf hocc h
    rw [hopLoop] at h
    injection h with h1 h2
    subst h1
    subst h2
    refine ⟨rfl, rfl, fun κ => Iff.rfl, fun _ => ⟨hInv, rfl⟩, fun f' h' => ?_⟩
    cases h'
  | succ fuel ih =>
    intro t free t' res hInv ho hf hocc h
    simp only [hopLoop] at h
    split at h
    · rename_i htlt
      injection h with h1 h2
      subst h1
      subst h2
      have hcap' : ((t.modifyMd origin (fun md => md.setLeaf (t.distance origin free))).modifyMd
          free (fun md => md.setOrigin (t.distance origin free))).cap = t.cap := by
        rw [Table.cap_modifyMd, Table.cap_modifyMd]
      refine ⟨hcap', by rw [Table.size_modifyMd, Table.size_modifyMd], ?_, ?_, ?_⟩
      · intro κ
        rw [hasKey_modifyMd (by rw [Table.cap_modifyMd]; exact hf) κ,
          hasKey_modifyMd ho κ]
      · intro habs
        cases habs
      · intro f' heq
        injection heq with heq
        subst heq
        have hmh : MaxHopDistance = kMaskBits := rfl
        exact ⟨t, hInv, rfl, rfl, fun κ => Iff.rfl, rfl, hf, hocc, by omega, rfl⟩
    · rename_i htge
      split at h
      · rename_i t'' nf heq
        have hfd_lt : t.distance origin free < t.cap := t.distance_lt ho hf
        have hmh : MaxHopDistance = kMaskBits := rfl
        have hcap27 : kMaskBits ≤ t.cap := by omega
        obtain ⟨hInv'', hcap'', hsize'', hnf, hocc'', hkey'', hcount'', -⟩ :=
          findCloserFreeBucket_some hInv hf hocc hcap27 heq
        obtain ⟨c1, c2, c3, c4, c5⟩ :=
          ih t'' nf hInv'' (by omega) (by omega) hocc'' h
        refine ⟨by omega, by omega, ?_, ?_, ?_⟩
        · intro κ
          rw [c3 κ, hkey'' κ]
        · intro hres
          obtain ⟨cInv, ccount⟩ := c4 hres
          exact ⟨cInv, by omega⟩
        · intro f' hres
          obtain ⟨t0, d1, d2, d3, d4, d5, d6, d7, d8, d9⟩ := c5 f' hres
          refine ⟨t0, d1, by omega, by omega, ?_, by omega, by omega, d7, d8, d9⟩
          intro κ
          rw [d4 κ, hkey'' κ]
      · rename_i t'' heq
        injection h with h1 h2
        subst h1
        subst h2
        have ht'' : t'' = t := findCloserFreeBucket_none heq
        subst ht''
        refine ⟨rfl, rfl, fun κ => Iff.rfl, fun _ => ⟨hInv, rfl⟩, fun f' h' => ?_⟩
        cases h'

/-- `InsertInArray` returning `ARRAY_FULL` preserves the invariant, the
capacity, `size_`, the key set and the live count (the hop loop may have
moved payloads around before giving up). -/
theorem insertInArray_none_spec {t t' : Table V} {hh : Nat}
    (hInv : InvCore hash getKey t) (h : insertInArray t hh = (t', none)) :
    InvCore hash getKey t' ∧ t'.cap = t.cap ∧ t'.size = t.size ∧
      (∀ κ, HasKey getKey t' κ ↔ HasKey getKey t κ) ∧ countOcc t' = countOcc t := by
  simp only [insertInArray] at h
  split at h
  · injection h with h1 h2
    subst h1
    exact ⟨hInv, rfl, rfl, fun κ => Iff.rfl, rfl⟩
  · rename_i hc
    split at h
    · injection h with h1 h2
      subst h1
      exact ⟨hInv, rfl, rfl, fun κ => Iff.rfl, rfl⟩
    · rename_i f0 hscan
      have hcap : 0 < t.cap := by omega
      have ho : t.clamp hh < t.cap := t.clamp_lt hh hcap
      obtain ⟨hf0, hocc0, -⟩ := scanFree_some_spec ho hscan
      obtain ⟨c1, c2, c3, c4, -⟩ := hopLoop_spec t.cap t f0 hInv ho hf0 hocc0 h
      obtain ⟨cInv, ccount⟩ := c4 rfl
      exact ⟨cInv, c1, c2, c3, ccount⟩

/-- `InsertInArray` returning `EMPTY_SLOT_FOUND f` followed by the caller
writing value `v` into slot `f`: the invariant holds again, the live count
grows by one, the key set gains exactly `getKey v`, and every other slot's
payload is key-equivalent to the original table. -/
theorem insertInArray_some_spec {t t' : Table V} {hh f : Nat}
    (hInv : InvCore hash getKey t) (h : insertInArray t hh = (t', some f)) :
    t'.cap = t.cap ∧ t'.size = t.size ∧ f < t.cap ∧
      ∀ v : V, t.clamp (hash (getKey v)) = t.clamp hh →
        InvCore hash getKey (t'.setValue f (some v)) ∧
        (t'.setValue f (some v)).cap = t.cap ∧
        (t'.setValue f (some v)).size = t.size ∧
        countOcc (t'.setValue f (some v)) = countOcc t + 1 ∧
        (∀ κ, HasKey getKey (t'.setValue f (some v)) κ ↔
          (HasKey getKey t κ ∨ κ = getKey v)) ∧
        ((t'.setValue f (some v)).getBucket f).value = some v ∧
        (¬HasKey getKey t (getKey v) → ∀ j, j < t.cap → j ≠ f → ∀ w',
          ((t'.setValue f (some v)).getBucket j).value = some w' → getKey w' ≠ getKey v) := by
  simp only [insertInArray] at h
  split at h
  · injection h with h1 h2
    cases h2
  · rename_i hc
    split at h
    · injection h with h1 h2
      cases h2
    · rename_i f0 hscan
      have hcap : 0 < t.cap := by omega
      have ho : t.clamp hh < t.cap := t.clamp_lt hh hcap
      obtain ⟨hf0, hocc0, -⟩ := scanFree_some_spec ho hscan
      obtain ⟨c1, c2, c3, -, c5⟩ := hopLoop_spec t.cap t f0 hInv ho hf0 hocc0 h
      obtain ⟨t0, d1, d2, d3, d4, d5, d6, d7, d8, d9⟩ := c5 f rfl
      refine ⟨c1, c2, d6, ?_⟩
      intro v hv
      have hv0 : t0.clamp (hash (getKey v)) = t.clamp hh := by
        rw [Table.clamp, d2, ← Table.clamp]
        exact hv
      obtain ⟨e1, e2, e3, e4, e5, e6, e7⟩ :=
        place_spec d1 (by omega) (by omega) d7 rfl d8 d9 v hv0
      refine ⟨e1, by omega, by omega, by omega, ?_, e6, ?_⟩
      · intro κ
        rw [e5 κ, d4 κ]
      · intro hnk j hj hjf w' hw'
        intro hkeq
        have hj0 : j < t0.cap := by omega
        have := e7 j hj0 hjf
        rw [hw'] at this
        have : HasKey getKey t0 (getKey v) := ⟨j, hj0, w', this.symm, hkeq⟩
        rw [d4] at this
        exact hnk this

end FindCloser

/-! ### The resize path -/

section ExpandLemmas

variable {K V : Type} [DecidableEq K] [Inhabited V]
variable {hash : K → Nat} {getKey : V → K}

theorem countOcc_countP (n : Nat) (p : Nat → Bool) :
    ((Finset.range n).filter (fun i => p i = true)).card = (List.range n).countP p := by
  induction n with
  | zero => simp
  | succ m ih =>
    rw [Finset.range_succ, List.range_succ, Finset.filter_insert, List.countP_append]
    split
    · rw [Finset.card_insert_of_not_mem (by simp), ih]
      simp [List.countP_cons, *]
    · rw [ih]
      simp only [List.countP_cons, List.countP_nil]
      rename_i hb
      simp at hb
      simp [hb]

theorem countOcc_eq_countP (t : Table V) :
    countOcc t = (List.range t.cap).countP (fun i => (t.getBucket i).md.isOccupied) := by
  rw [countOcc, countOcc_countP]

theorem hasKey_iff_exists_occ {t : Table V} (h : InvCore hash getKey t) (κ : K) :
    HasKey getKey t κ ↔ ∃ i, i < t.cap ∧ (t.getBucket i).md.isOccupied = true ∧
      getKey (t.getBucket i).get = κ := by
  constructor
  · rintro ⟨i, hi, v, hv, hk⟩
    refine ⟨i, hi, ?_, ?_⟩
    · rw [isOccupied_true_iff]
      exact (invCore_occ_iff_some h hi).mpr (by rw [hv]; rfl)
    · rw [Bucket.get_of_some hv]
      exact hk
  · rintro ⟨i, hi, hocc, hk⟩
    rw [isOccupied_true_iff] at hocc
    obtain ⟨v, hv⟩ := Option.isSome_iff_exists.mp ((invCore_occ_iff_some h hi).mp hocc)
    refine ⟨i, hi, v, hv, ?_⟩
    rw [Bucket.get_of_some hv] at hk
    exact hk

/-- The freshly allocated all-free array of `ExpandTable`. -/
theorem fresh_table_spec (c s : Nat) :
    InvCore hash getKey (⟨List.replicate c ⟨⟨0, 0⟩, none⟩, s⟩ : Table V) ∧
      (⟨List.replicate c ⟨⟨0, 0⟩, none⟩, s⟩ : Table V).cap = c ∧
      countOcc (⟨List.replicate c ⟨⟨0, 0⟩, none⟩, s⟩ : Table V) = 0 ∧
      ∀ κ, ¬HasKey getKey (⟨List.replicate c ⟨⟨0, 0⟩, none⟩, s⟩ : Table V) κ := by
  have hcap : (⟨List.replicate c ⟨⟨0, 0⟩, none⟩, s⟩ : Table V).cap = c :=
    List.length_replicate c _
  have hget : ∀ i, (⟨List.replicate c ⟨⟨0, 0⟩, none⟩, s⟩ : Table V).getBucket i =
      ⟨⟨0, 0⟩, none⟩ := by
    intro i
    rw [Table.getBucket, List.getD_eq_getElem?_getD, List.getElem?_replicate]
    split <;> rfl
  refine ⟨⟨?_, ?_⟩, hcap, ?_, ?_⟩
  · intro i hi
    rw [hget i]
    refine ⟨by norm_num [kMaskBits], by norm_num [kMaskBits], ?_, ?_⟩
    · constructor
      · intro h0; exact absurd rfl h0
      · intro hs; cases hs
    · intro h0; exact absurd rfl h0
  · intro b hb δ hδ hl
    rw [hget b] at hl
    rw [BucketMetadata.hasLeaf] at hl
    rw [Nat.zero_testBit] at hl
    cases hl
  · rw [countOcc_eq_countP]
    rw [List.countP_eq_length_filter]
    have : ∀ i ∈ List.range ((⟨List.replicate c ⟨⟨0, 0⟩, none⟩, s⟩ : Table V).cap),
        ¬((⟨List.replicate c ⟨⟨0, 0⟩, none⟩, s⟩ : Table V).getBucket i).md.isOccupied = true := by
      intro i _
      rw [hget i]
      simp [BucketMetadata.isOccupied]
    rw [List.filter_eq_nil.mpr this]
    rfl
  · rintro κ ⟨i, hi, v, hv, hk⟩
    rw [hget i] at hv
    cases hv

/-- Partial correctness of the migration fold of `ExpandTable`. -/
theorem expandAux_spec {told : Table V} (htold : InvCore hash getKey told) :
    ∀ (idxs : List Nat) (a a' : Table V), (∀ i ∈ idxs, i < told.cap) →
    InvCore hash getKey a →
    expandAux hash getKey told idxs a = some a' →
    InvCore hash getKey a' ∧ a'.cap = a.cap ∧ a'.size = a.size ∧
      countOcc a' = countOcc a + idxs.countP (fun i => (told.getBucket i).md.isOccupied) ∧
      (∀ κ, HasKey getKey a' κ ↔ (HasKey getKey a κ ∨
        ∃ i ∈ idxs, (told.getBucket i).md.isOccupied = true ∧
          getKey (told.getBucket i).get = κ)) := by
  intro idxs
  induction idxs with
  | nil =>
    intro a a' _ hInva h
    rw [expandAux] at h
    injection h with h
    subst h
    refine ⟨hInva, rfl, rfl, by simp, fun κ => ?_⟩
    simp
  | cons i rest ih =>
    intro a a' hbound hInva h
    rw [expandAux] at h
    split at h
    · rename_i hocc
      split at h
      · rename_i a1 ni heq
        have hi : i < told.cap := hbound i (List.mem_cons_self i rest)
        have hiocc : (told.getBucket i).md.origin ≠ 0 := (isOccupied_true_iff _).mp hocc
        obtain ⟨w, hw⟩ :=
          Option.isSome_iff_exists.mp ((invCore_occ_iff_some htold hi).mp hiocc)
        have hgw : (told.getBucket i).get = w := Bucket.get_of_some hw
        obtain ⟨c1, c2, c3, c4⟩ := insertInArray_some_spec hInva heq
        have hvclamp : a.clamp (hash (getKey w)) = a.clamp (hash (getKey (told.getBucket i).get)) := by
          rw [hgw]
        obtain ⟨e1, e2, e3, e4, e5, e6, e7⟩ := c4 w hvclamp
        have hset : a1.setValue ni (told.getBucket i).value = a1.setValue ni (some w) := by
          rw [hw]
        rw [hset] at h
        obtain ⟨g1, g2, g3, g4, g5⟩ :=
          ih (a1.setValue ni (some w)) a' (fun j hj => hbound j (List.mem_cons_of_mem i hj))
            e1 h
        refine ⟨g1, by omega, by omega, ?_, ?_⟩
        · rw [List.countP_cons]
          simp only [hocc, if_pos]
          omega
        · intro κ
          rw [g5 κ, e5 κ]
          constructor
          · rintro ((hk | hk) | hk)
            · exact Or.inl hk
            · exact Or.inr ⟨i, List.mem_cons_self i rest, hocc, by rw [hgw, hk]⟩
            · obtain ⟨j, hjmem, hjocc, hjk⟩ := hk
              exact Or.inr ⟨j, List.mem_cons_of_mem i hjmem, hjocc, hjk⟩
          · rintro (hk | ⟨j, hjmem, hjocc, hjk⟩)
            · exact Or.inl (Or.inl hk)
            · rcases List.mem_cons.mp hjmem with rfl | hjmem'
              · exact Or.inl (Or.inr (by rw [← hjk, hgw]))
              · exact Or.inr ⟨j, hjmem', hjocc, hjk⟩
      · cases h
    · rename_i hocc
      obtain ⟨g1, g2, g3, g4, g5⟩ :=
        ih a a' (fun j hj => hbound j (List.mem_cons_of_mem i hj)) hInva h
      have hoccF : (told.getBucket i).md.isOccupied = false := by
        cases hb : (told.getBucket i).md.isOccupied
        · rfl
        · exact absurd hb hocc
      refine ⟨g1, g2, g3, ?_, ?_⟩
      · rw [List.countP_cons, hoccF]
        have hfalse : (if (false : Bool) = true then (1 : Nat) else 0) = 0 := rfl
        rw [hfalse]
        omega
      · intro κ
        rw [g5 κ]
        constructor
        · rintro (hk | ⟨j, hjmem, hjocc, hjk⟩)
          · exact Or.inl hk
          · exact Or.inr ⟨j, List.mem_cons_of_mem i hjmem, hjocc, hjk⟩
        · rintro (hk | ⟨j, hjmem, hjocc, hjk⟩)
          · exact Or.inl hk
          · rcases List.mem_cons.mp hjmem with rfl | hjmem'
            · rw [hjocc] at hoccF
              cases hoccF
            · exact Or.inr ⟨j, hjmem', hjocc, hjk⟩

/-- `ExpandTable` (when its internal assertion holds): the invariant is
re-established, `size_` and the key set are preserved, and the new capacity
is `ComputeCapacity(capacity + delta)`. -/
theorem expandTable_some_spec {N : Nat} {t t' : Table V} {delta : Nat}
    (hInv : Inv hash getKey t) (h : expandTable hash getKey N t delta = some t') :
    Inv hash getKey t' ∧ t'.size = t.size ∧ t'.cap = computeCapacity N (t.cap + delta) ∧
      (∀ κ, HasKey getKey t' κ ↔ HasKey getKey t κ) := by
  rw [expandTable] at h
  split at h
  · cases h
  · rename_i a heq
    injection h with h
    subst h
    obtain ⟨hfInv, hfcap, hfcount, hfkey⟩ :=
      @fresh_table_spec K V _ _ hash getKey
        (computeCapacity N (t.cap + delta)) 0
    obtain ⟨g1, g2, g3, g4, g5⟩ :=
      expandAux_spec hInv.1 (List.range t.cap) _ a
        (fun j hj => List.mem_range.mp hj) hfInv heq
    have hcount_told : (List.range t.cap).countP
        (fun i => (t.getBucket i).md.isOccupied) = countOcc t :=
      (countOcc_eq_countP t).symm
    have hcap' : ({ a with size := t.size } : Table V).cap =
        computeCapacity N (t.cap + delta) := by
      rw [Table.cap] at *
      rw [g2] at *
      exact hfcap
    refine ⟨⟨g1, ?_⟩, rfl, hcap', ?_⟩
    · show t.size = countOcc a
      rw [g4, hfcount, hcount_told]
      have := hInv.2
      omega
    · intro κ
      have hk := g5 κ
      constructor
      · intro hk'
        have := hk.mp hk'
        rcases this with hk'' | ⟨j, hjmem, hjocc, hjk⟩
        · exact absurd hk'' (hfkey κ)
        · rw [hasKey_iff_exists_occ hInv.1 κ]
          exact ⟨j, List.mem_range.mp hjmem, hjocc, hjk⟩
      · intro hk'
        rw [hasKey_iff_exists_occ hInv.1 κ] at hk'
        obtain ⟨j, hj, hjocc, hjk⟩ := hk'
        exact hk.mpr (Or.inr ⟨j, List.mem_range.mpr hj, hjocc, hjk⟩)

end ExpandLemmas

/-! ### The top-level insertion path -/

section InsertLemmas

variable {K V : Type} [DecidableEq K] [Inhabited V]
variable {hash : K → Nat} {getKey : V → K} {N : Nat}

/-- The bounded retry loop of `Insert`, followed by the caller's value write
into the returned slot. -/
theorem insertLoop_spec : ∀ (iter : Nat) (t : Table V) {t' : Table V} {i : Nat} {b : Bool}
    (v : V), Inv hash getKey t →
    insertLoop hash getKey N (hash (getKey v)) t iter = some (t', i, b) →
    b = true ∧ i < t'.cap ∧
      Inv hash getKey (t'.setValue i (some v)) ∧
      (t'.setValue i (some v)).size = t.size + 1 ∧
      (∀ κ, HasKey getKey (t'.setValue i (some v)) κ ↔ (HasKey getKey t κ ∨ κ = getKey v)) ∧
      ((t'.setValue i (some v)).getBucket i).value = some v ∧
      (¬HasKey getKey t (getKey v) → ∀ j, j < t'.cap → j ≠ i → ∀ w',
        ((t'.setValue i (some v)).getBucket j).value = some w' → getKey w' ≠ getKey v) := by
  intro iter
  induction iter with
  | zero =>
    intro t t' i b v _ h
    cases h
  | succ iter ih =>
    intro t t' i b v hInv h
    rw [insertLoop] at h
    split at h
    · rename_i t1 f heq
      injection h with h
      injection h with ht hrest
      injection hrest with hi hb
      subst ht
      subst hi
      subst hb
      obtain ⟨c1, c2, c3, c4⟩ := insertInArray_some_spec hInv.1 heq
      obtain ⟨e1, e2, e3, e4, e5, e6, e7⟩ := c4 v rfl
      have hcap' : ({ t1 with size := t1.size + 1 } : Table V).cap = t1.cap := rfl
      refine ⟨rfl, by omega, ⟨?_, ?_⟩, ?_, ?_, ?_, ?_⟩
      · exact e1
      · show t1.size + 1 = countOcc (t1.setValue f (some v))
        rw [e4]
        have := hInv.2
        omega
      · show (t1.setValue f (some v)).size + 1 = t.size + 1
        rw [Table.size_setValue]
        omega
      · exact e5
      · exact e6
      · intro hnk j hj hjf w' hw'
        exact e7 hnk j (by omega) hjf w' hw'
    · rename_i t1 heq
      split at h
      · cases h
      · rename_i t2 heq2
        obtain ⟨f1, f2, f3, f4, f5⟩ := insertInArray_none_spec hInv.1 heq
        have hInv1 : Inv hash getKey t1 := by
          refine ⟨f1, ?_⟩
          have := hInv.2
          omega
        obtain ⟨g1, g2, g3, g4⟩ := expandTable_some_spec hInv1 heq2
        obtain ⟨d1, d2, d3, d4, d5, d6, d7⟩ := ih t2 v g1 h
        refine ⟨d1, d2, d3, ?_, ?_, d6, ?_⟩
        · rw [d4]
          omega
        · intro κ
          rw [d5 κ, g4 κ, f4 κ]
        · intro hnk
          refine d7 ?_
          rw [g4, f4]
          exact hnk

theorem Insert_eq_found {t : Table V} {k : K} {i : Nat}
    (h : findInArray getKey t k (hash k) = some i) :
    Insert hash getKey N t k = some (t, i, false) := by
  simp only [Insert, h]

theorem Insert_eq_notfound {t : Table V} {k : K}
    (h : findInArray getKey t k (hash k) = none) :
    Insert hash getKey N t k = insertLoop hash getKey N (hash k) t 4 := by
  simp only [Insert, h]

/-- `insert` of an element whose key is already present: it touches nothing
and reports `inserted = false` at the found slot. -/
theorem insert_found_spec {t : Table V} {v : V} {i : Nat}
    (h : findInArray getKey t (getKey v) (hash (getKey v)) = some i) :
    insert hash getKey N t v = some (t, i, false) := by
  rw [insert, Insert_eq_found h]

/-- `insert` reporting `inserted = true`: the key was not found beforehand,
the invariant holds again, `size_` grew by one, the key set gained exactly
the new key, the new slot stores `v`, and looking the key up right after
returns exactly that slot. -/
theorem insert_true_spec {t t' : Table V} {v : V} {i : Nat}
    (hInv : Inv hash getKey t) (h : insert hash getKey N t v = some (t', i, true)) :
    findInArray getKey t (getKey v) (hash (getKey v)) = none ∧
      Inv hash getKey t' ∧ t'.size = t.size + 1 ∧
      (∀ κ, HasKey getKey t' κ ↔ (HasKey getKey t κ ∨ κ = getKey v)) ∧
      (t'.getBucket i).value = some v ∧ i < t'.cap ∧
      find hash getKey t' (getKey v) = some i ∧
      (∀ j, j < t'.cap → j ≠ i → ∀ w',
        (t'.getBucket j).value = some w' → getKey w' ≠ getKey v) := by
  rw [insert] at h
  cases hfind : findInArray getKey t (getKey v) (hash (getKey v)) with
  | some j =>
    rw [Insert_eq_found hfind] at h
    injection h with h
    injection h with h1 hrest
    injection hrest with h2 h3
    cases h3
  | none =>
    rw [Insert_eq_notfound hfind] at h
    cases hloop : insertLoop hash getKey N (hash (getKey v)) t 4 with
    | none =>
      rw [hloop] at h
      cases h
    | some r =>
      obtain ⟨t1, i1, b1⟩ := r
      rw [hloop] at h
      cases b1 with
      | false =>
        injection h with h
        injection h with h1 hrest
        injection hrest with h2 h3
        cases h3
      | true =>
        injection h with h
        injection h with h1 hrest
        injection hrest with h2 h3
        subst h1
        subst h2
        obtain ⟨-, d2, d3, d4, d5, d6, d7⟩ := insertLoop_spec 4 t v hInv hloop
        have hnk : ¬HasKey getKey t (getKey v) := (findInArray_none_iff hInv.1 _).mp hfind
        have hcv : (t1.setValue i1 (some v)).cap = t1.cap := Table.cap_setValue ..
        refine ⟨rfl, d3, d4, d5, d6, by omega, ?_, fun j hj hji w' hw' => d7 hnk j (by omega) hji w' hw'⟩
        rw [find]
        cases hf : findInArray getKey (t1.setValue i1 (some v)) (getKey v)
            (hash (getKey v)) with
        | none =>
          have := (findInArray_none_iff d3.1 (getKey v)).mp hf
          exact absurd ⟨i1, by omega, v, d6, rfl⟩ this
        | some j =>
          obtain ⟨hj, hjocc, w, hjw, hjk⟩ := findInArray_some_spec d3.1 hf
          by_cases hji : j = i1
          · rw [hji]
          · exact absurd hjk (d7 hnk j (by omega) hji w hjw)

end InsertLemmas

/-! ### The erase path, `clear`, construction, and reachability -/

section EraseLemmas

variable {K V : Type} [DecidableEq K] [Inhabited V]
variable {hash : K → Nat} {getKey : V → K} {N : Nat}

theorem countOcc_pos_of_occ {t : Table V} {i : Nat} (hi : i < t.cap)
    (hocc : (t.getBucket i).md.isOccupied = true) : 1 ≤ countOcc t := by
  rw [countOcc]
  have : i ∈ (Finset.range t.cap).filter (fun j => (t.getBucket j).md.isOccupied = true) :=
    Finset.mem_filter.mpr ⟨Finset.mem_range.mpr hi, hocc⟩
  exact Finset.card_pos.mpr ⟨i, this⟩

/-- `erase(iterator)` on an occupied slot: the invariant is preserved, the
live count drops by one, the slot's payload is destroyed and every other
slot's payload is untouched. -/
theorem eraseAt_spec {t : Table V} {i : Nat} (hInv : Inv hash getKey t) (hi : i < t.cap)
    (hocc : (t.getBucket i).md.isOccupied = true) :
    Inv hash getKey (eraseAt t i) ∧ (eraseAt t i).cap = t.cap ∧
      (eraseAt t i).size + 1 = t.size ∧
      ((eraseAt t i).getBucket i).value = none ∧
      (∀ j, j < t.cap → j ≠ i → ((eraseAt t i).getBucket j).value = (t.getBucket j).value) := by
  have hio : (t.getBucket i).md.origin ≠ 0 := (isOccupied_true_iff _).mp hocc
  obtain ⟨hδc, hleaf, hhash⟩ := invCore_origin_spec hInv.1 hi hio
  have hdelta : ((t.getBucket i).md.getOrigin).toNat = (t.getBucket i).md.origin - 1 := by
    rw [BucketMetadata.getOrigin, if_neg hio]
    omega
  simp only [eraseAt, hdelta]
  set D := (t.getBucket i).md.origin - 1 with hD
  set t1 := (t.modifyMd i (fun md => md.clearOrigin)).setValue i none with ht1
  have hcapm : (t.modifyMd i (fun md => md.clearOrigin)).cap = t.cap := Table.cap_modifyMd ..
  have hcap1 : t1.cap = t.cap := by rw [ht1, Table.cap_setValue, hcapm]
  have hclampSub1 : t1.clampSub i D = t.clampSub i D := by
    rw [Table.clampSub, Table.clampSub, hcap1]
  rw [hclampSub1]
  set b := t.clampSub i D with hb_def
  have hb : b < t.cap := t.clampSub_lt i D (by omega)
  set t2 := t1.modifyMd b (fun md => md.clearLeaf D) with ht2
  have hcap2 : t2.cap = t.cap := by rw [ht2, Table.cap_modifyMd, hcap1]
  have hsize2 : t2.size = t.size := by
    rw [ht2, ht1]
    simp only [Table.size_modifyMd, Table.size_setValue]
  -- slot contents
  have ht1_i : t1.getBucket i =
      { md := (t.getBucket i).md.clearOrigin, value := none } := by
    rw [ht1, Table.getBucket_setValue_self _ i none (by omega),
      Table.getBucket_modifyMd_self t i _ hi]
  have ht1_other : ∀ j, j ≠ i → t1.getBucket j = t.getBucket j := by
    intro j hj
    rw [ht1, Table.getBucket_setValue_ne _ i j none (fun he => hj he.symm),
      Table.getBucket_modifyMd_ne t i j _ (fun he => hj he.symm)]
  have ht2_b : (t2.getBucket b).md = (t1.getBucket b).md.clearLeaf D := by
    rw [ht2, Table.getBucket_modifyMd_self t1 b _ (by omega)]
  have ht2_b_val : (t2.getBucket b).value = (t1.getBucket b).value := by
    rw [ht2, Table.getBucket_modifyMd_self t1 b _ (by omega)]
  have ht2_other : ∀ j, j ≠ b → t2.getBucket j = t1.getBucket j := by
    intro j hj
    rw [ht2]
    exact Table.getBucket_modifyMd_ne t1 b j _ (fun he => hj he.symm)
  -- field-level facts
  have hmask1_b : (t1.getBucket b).md.mask = (t.getBucket b).md.mask := by
    by_cases hbi : b = i
    · rw [hbi, ht1_i]
      rfl
    · rw [ht1_other b hbi]
  have horig2_i : (t2.getBucket i).md.origin = 0 := by
    by_cases hbi : b = i
    · rw [← hbi, ht2_b, origin_clearLeaf, hbi, ht1_i]
      rfl
    · rw [ht2_other i (fun he => hbi he.symm), ht1_i]
      rfl
  have hval2_i : (t2.getBucket i).value = none := by
    by_cases hbi : b = i
    · rw [← hbi, ht2_b_val, hbi, ht1_i]
    · rw [ht2_other i (fun he => hbi he.symm), ht1_i]
  have horig2_other : ∀ j, j ≠ i → (t2.getBucket j).md.origin = (t.getBucket j).md.origin := by
    intro j hj
    by_cases hjb : j = b
    · rw [hjb, ht2_b, origin_clearLeaf, ht1_other b (fun he => hj (hjb.trans he))]
    · rw [ht2_other j hjb, ht1_other j hj]
  have hval2_other : ∀ j, j ≠ i → (t2.getBucket j).value = (t.getBucket j).value := by
    intro j hj
    by_cases hjb : j = b
    · rw [hjb, ht2_b_val, ht1_other b (fun he => hj (hjb.trans he))]
    · rw [ht2_other j hjb, ht1_other j hj]
  have hmask2_b : ∀ jj, (t2.getBucket b).md.hasLeaf jj =
      ((t.getBucket b).md.hasLeaf jj && !decide (jj = D)) := by
    intro jj
    rw [ht2_b]
    have hmlt : (t1.getBucket b).md.mask < 2 ^ kMaskBits := by
      rw [hmask1_b]
      exact invCore_mask_lt hInv.1 hb
    rw [hasLeaf_clearLeaf (t1.getBucket b).md D jj hmlt,
      hasLeaf_congr hmask1_b jj]
  have hmask2_other : ∀ j, j ≠ b → ∀ jj,
      (t2.getBucket j).md.hasLeaf jj = (t.getBucket j).md.hasLeaf jj := by
    intro j hjb jj
    by_cases hji : j = i
    · rw [ht2_other j hjb, hji, ht1_i]
      rfl
    · rw [ht2_other j hjb, ht1_other j hji]
  have hmask2_lt : ∀ j, j < t.cap → (t2.getBucket j).md.mask < 2 ^ kMaskBits := by
    intro j hjc
    by_cases hjb : j = b
    · rw [hjb, ht2_b]
      exact mask_clearLeaf_lt _ D
    · by_cases hji : j = i
      · rw [ht2_other j hjb, hji, ht1_i]
        exact invCore_mask_lt hInv.1 hi
      · rw [ht2_other j hjb, ht1_other j hji]
        exact invCore_mask_lt hInv.1 hjc
  have hcount2 : countOcc t2 + 1 = countOcc t := by
    have hA : countOcc (t.modifyMd i (fun md => md.clearOrigin)) + 1 = countOcc t :=
      countOcc_modifyMd_release t i _ hi hocc rfl
    have hB : countOcc t1 = countOcc (t.modifyMd i (fun md => md.clearOrigin)) := by
      rw [ht1]
      exact countOcc_setValue_eq _ i none (by omega)
    have hC : countOcc t2 = countOcc t1 := by
      rw [ht2]
      exact countOcc_modifyMd_same t1 b _ (by omega) rfl
    omega
  have hsize_pos : 1 ≤ t.size := by
    rw [hInv.2]
    exact countOcc_pos_of_occ hi hocc
  have hinv2 : InvCore hash getKey t2 := by
    constructor
    · intro j hj
      rw [hcap2] at hj
      by_cases hji : j = i
      · subst hji
        refine ⟨hmask2_lt j hj, ?_, ?_, ?_⟩
        · rw [horig2_i]
          exact Nat.zero_le _
        · constructor
          · intro h0
            rw [horig2_i] at h0
            exact absurd rfl h0
          · intro hs
            rw [hval2_i] at hs
            cases hs
        · intro h0
          rw [horig2_i] at h0
          exact absurd rfl h0
      · refine ⟨hmask2_lt j hj, ?_, ?_, ?_⟩
        · rw [horig2_other j hji]
          exact invCore_origin_le hInv.1 hj
        · rw [horig2_other j hji, hval2_other j hji]
          exact (hInv.1.1 j hj).2.2.1
        · intro h0
          rw [horig2_other j hji] at h0 ⊢
          obtain ⟨ho1, ho2, ho3⟩ := invCore_origin_spec hInv.1 hj h0
          have hclampSub2' : ∀ a c, t2.clampSub a c = t.clampSub a c := fun a c => by
            rw [Table.clampSub, Table.clampSub, hcap2]
          have hclamp2' : ∀ x, t2.clamp x = t.clamp x := fun x => by
            rw [Table.clamp, Table.clamp, hcap2]
          refine ⟨by omega, ?_, ?_⟩
          · rw [hclampSub2']
            by_cases hbj : t.clampSub j ((t.getBucket j).md.origin - 1) = b
            · rw [hbj, hmask2_b]
              have hne : decide ((t.getBucket j).md.origin - 1 = D) = false := by
                refine decide_eq_false ?_
                intro he
                have h1 : t.clamp (t.clampSub j ((t.getBucket j).md.origin - 1) +
                    ((t.getBucket j).md.origin - 1)) = j := t.clamp_clampSub_add hj (by omega)
                have h2 : t.clamp (t.clampSub i D + D) = i := t.clamp_clampSub_add hi (by omega)
                rw [hbj, he] at h1
                rw [← hb_def] at h2
                rw [h1] at h2
                exact hji h2
              rw [hbj] at ho2
              rw [ho2, hne]
              simp
            · rw [hmask2_other _ hbj]
              exact ho2
          · rw [hclamp2', hclampSub2']
            have hg : (t2.getBucket j).get = (t.getBucket j).get := by
              rw [Bucket.get, Bucket.get, hval2_other j hji]
            rw [hg]
            exact ho3
    · intro b' hb' δ' hδ'27 hl2
      rw [hcap2] at hb'
      have hclamp2' : ∀ x, t2.clamp x = t.clamp x := fun x => by
        rw [Table.clamp, Table.clamp, hcap2]
      rw [hclamp2']
      by_cases hb'b : b' = b
      · rw [hb'b] at hl2 ⊢
        rw [hmask2_b δ'] at hl2
        rw [Bool.and_eq_true, Bool.not_eq_true', decide_eq_false_iff_not] at hl2
        obtain ⟨hold, hne⟩ := hl2
        obtain ⟨hδ'c, htno⟩ := invCore_leaf_spec hInv.1 hb hδ'27 hold
        refine ⟨by omega, ?_⟩
        have hti : t.clamp (b + δ') ≠ i := by
          intro he
          rw [he] at htno
          apply hne
          omega
        rw [horig2_other _ hti]
        exact htno
      · rw [hmask2_other b' hb'b δ'] at hl2
        obtain ⟨hδ'c, htno⟩ := invCore_leaf_spec hInv.1 hb' hδ'27 hl2
        refine ⟨by omega, ?_⟩
        have hti : t.clamp (b' + δ') ≠ i := by
          intro he
          rw [he] at htno
          have hδ'D : δ' = D := by omega
          have hrec : t.clampSub (t.clamp (b' + δ')) δ' = b' := leaf_origin_recover t hb' hδ'c
          rw [he, hδ'D] at hrec
          rw [← hb_def] at hrec
          exact hb'b hrec.symm
        rw [horig2_other _ hti]
        exact htno
  refine ⟨⟨hinv2, ?_⟩, hcap2, ?_, hval2_i, fun j _ hji => hval2_other j hji⟩
  · show t2.size - 1 = countOcc t2
    have := hInv.2
    omega
  · show t2.size - 1 + 1 = t.size
    omega

/-- `erase(k)` of an absent key: nothing happens and `0` is returned. -/
theorem erase_absent_spec {t : Table V} {k : K}
    (h : find hash getKey t k = none) : erase hash getKey t k = (t, 0) := by
  rw [erase, h]

/-- `erase(k)` of a present key: the slot `find` returns is erased and `1` is
returned. -/
theorem erase_present_spec {t : Table V} {k : K} {i : Nat} (hInv : Inv hash getKey t)
    (h : find hash getKey t k = some i) :
    erase hash getKey t k = (eraseAt t i, 1) ∧ i < t.cap ∧
      (t.getBucket i).md.isOccupied = true := by
  obtain ⟨hi, hiocc, -⟩ := findInArray_some_spec hInv.1 h
  refine ⟨?_, hi, (isOccupied_true_iff _).mpr hiocc⟩
  rw [erase, h]

theorem clear_spec (t : Table V) :
    Inv hash getKey (clear t) ∧ (clear t).cap = t.cap ∧ (clear t).size = 0 ∧
      ∀ κ, ¬HasKey getKey (clear t) κ := by
  have hcap : (clear t).cap = t.cap := by
    rw [clear, Table.cap, Table.cap]
    exact List.length_map ..
  have hget : ∀ i, (clear t).getBucket i = ⟨⟨0, 0⟩, none⟩ := by
    intro i
    rw [clear, Table.getBucket, List.getD_eq_getElem?_getD, List.getElem?_map]
    cases t.buckets[i]? <;> rfl
  refine ⟨⟨⟨?_, ?_⟩, ?_⟩, hcap, rfl, ?_⟩
  · intro i hi
    rw [hget i]
    refine ⟨by norm_num [kMaskBits], by norm_num [kMaskBits], ?_, ?_⟩
    · constructor
      · intro h0
        exact absurd rfl h0
      · intro hs
        cases hs
    · intro h0
      exact absurd rfl h0
  · intro b hb δ hδ hl
    rw [hget b] at hl
    rw [BucketMetadata.hasLeaf, Nat.zero_testBit] at hl
    cases hl
  · show (0 : Nat) = countOcc (clear t)
    rw [countOcc_eq_countP, List.countP_eq_length_filter]
    have hnone : ∀ i ∈ List.range (clear t).cap,
        ¬((clear t).getBucket i).md.isOccupied = true := by
      intro i _
      rw [hget i]
      simp [BucketMetadata.isOccupied]
    rw [List.filter_eq_nil.mpr hnone]
    rfl
  · rintro κ ⟨i, hi, v, hv, hk⟩
    rw [hget i] at hv
    cases hv

theorem mkTable_spec (bucketCount : Nat) :
    Inv hash getKey (mkTable (V := V) N bucketCount) ∧
      (mkTable (V := V) N bucketCount).cap = computeCapacity N bucketCount ∧
      (mkTable (V := V) N bucketCount).size = 0 ∧
      ∀ κ, ¬HasKey getKey (mkTable (V := V) N bucketCount) κ := by
  obtain ⟨h1, h2, h3, h4⟩ :=
    @fresh_table_spec K V _ _ hash getKey (computeCapacity N bucketCount) 0
  exact ⟨⟨h1, h3.symm⟩, h2, rfl, h4⟩

/-- `insert` reporting `inserted = false` leaves the table unchanged and
returns the slot `find` reported. -/
theorem insert_false_spec {t t' : Table V} {v : V} {i : Nat}
    (hInv : Inv hash getKey t) (h : insert hash getKey N t v = some (t', i, false)) :
    t' = t ∧ findInArray getKey t (getKey v) (hash (getKey v)) = some i := by
  rw [insert] at h
  cases hfind : findInArray getKey t (getKey v) (hash (getKey v)) with
  | some j =>
    rw [Insert_eq_found hfind] at h
    injection h with h
    injection h with h1 hrest
    injection hrest with h2 h3
    subst h1
    subst h2
    exact ⟨rfl, rfl⟩
  | none =>
    rw [Insert_eq_notfound hfind] at h
    cases hloop : insertLoop hash getKey N (hash (getKey v)) t 4 with
    | none =>
      rw [hloop] at h
      cases h
    | some r =>
      obtain ⟨t1, i1, b1⟩ := r
      rw [hloop] at h
      cases b1 with
      | false =>
        obtain ⟨hb, -⟩ := insertLoop_spec 4 t v hInv hloop
        cases hb
      | true =>
        injection h with h
        injection h with h1 hrest
        injection hrest with h2 h3
        cases h3

/-- Every state reachable by the public mutators satisfies the full table
invariant. -/
theorem reachable_inv {t : Table V} (h : Reachable hash getKey N t) :
    Inv hash getKey t := by
  induction h with
  | base bucketCount => exact (mkTable_spec bucketCount).1
  | insertStep t v t' i b _ hins ih =>
    cases b with
    | false =>
      obtain ⟨he, -⟩ := insert_false_spec ih hins
      rw [he]
      exact ih
    | true => exact (insert_true_spec ih hins).2.1
  | eraseStep t k _ ih =>
    cases hf : find hash getKey t k with
    | none =>
      rw [erase_absent_spec hf]
      exact ih
    | some i =>
      obtain ⟨he, hi, hocc⟩ := erase_present_spec ih hf
      rw [he]
      exact (eraseAt_spec ih hi hocc).1
  | eraseItStep t i _ hi hocc ih => exact (eraseAt_spec ih hi hocc).1
  | clearStep t _ _ => exact (clear_spec t).1

end EraseLemmas

/-! ### Lemmas about the ceiling base-2 logarithm -/

theorem clog2Aux_spec : ∀ fuel n, n ≤ fuel → 1 ≤ n →
    n ≤ 2 ^ clog2Aux fuel n ∧ ∀ m, n ≤ 2 ^ m → clog2Aux fuel n ≤ m := by
  intro fuel
  induction fuel with
  | zero => intro n h1 h2; omega
  | succ fuel ih =>
    intro n hle h1
    rw [clog2Aux]
    by_cases hn : n ≤ 1
    · rw [if_pos hn]
      exact ⟨by simpa using by omega, fun m _ => by omega⟩
    · rw [if_neg hn]
      have ha : (n + 1) / 2 ≤ fuel := by omega
      have hb : 1 ≤ (n + 1) / 2 := by omega
      obtain ⟨ih1, ih2⟩ := ih _ ha hb
      constructor
      · have he : (2 : Nat) ^ (1 + clog2Aux fuel ((n + 1) / 2)) =
            2 * 2 ^ clog2Aux fuel ((n + 1) / 2) := by
          rw [pow_add]; ring
        rw [he]
        omega
      · intro m hm
        match m with
        | 0 => simp at hm; omega
        | m + 1 =>
          rw [pow_succ] at hm
          have := ih2 m (by omega)
          omega

theorem clog2_spec (n : Nat) (h : 1 ≤ n) :
    n ≤ 2 ^ clog2 n ∧ ∀ m, n ≤ 2 ^ m → clog2 n ≤ m :=
  clog2Aux_spec n n le_rfl h

theorem clog2_two_pow (k : Nat) : clog2 (2 ^ k) = k := by
  have h1 : (1 : Nat) ≤ 2 ^ k := Nat.one_le_two_pow
  obtain ⟨ha, hb⟩ := clog2_spec (2 ^ k) h1
  have h2 : clog2 (2 ^ k) ≤ k := hb k le_rfl
  have h3 : k ≤ clog2 (2 ^ k) := (Nat.pow_le_pow_iff_right (by omega)).mp ha
  omega

/-! ### Lemmas about `ComputeCapacity` -/

theorem computeCapacity_eq_max (N desired : Nat) :
    computeCapacity N desired =
      if max N desired = 0 then 0 else 2 ^ clog2 (max N desired) := by
  simp only [computeCapacity]
  have hd : (if desired < N then N else desired) = max N desired := by
    split <;> omega
  rw [hd]
  split <;> omega

theorem computeCapacity_spec (N desired : Nat) (h : max N desired ≠ 0) :
    max N desired ≤ computeCapacity N desired ∧
      (∃ k, computeCapacity N desired = 2 ^ k) ∧
      (∀ m, max N desired ≤ 2 ^ m → computeCapacity N desired ≤ 2 ^ m) := by
  rw [computeCapacity_eq_max, if_neg h]
  obtain ⟨h1, h2⟩ := clog2_spec (max N desired) (by omega)
  exact ⟨h1, ⟨_, rfl⟩, fun m hm => Nat.pow_le_pow_right (by omega) (h2 m hm)⟩

/-! ### Success of insertion into small non-full tables, and of expansion

`MaxHopDistance` and `MaxAddDistance` both exceed any capacity up to 27,
so on such tables the first free slot found by the linear scan is already
within hop range and `InsertInArray` succeeds without any swap. -/

section SuccessLemmas

variable {K V : Type} [DecidableEq K] [Inhabited V]
variable {hash : K → Nat} {getKey : V → K} {N : Nat}

/-- With the capacity within both the linear-scan range and the hop range and
at least one free slot, `InsertInArray` reports `EMPTY_SLOT_FOUND`. -/
theorem insertInArray_small_some {t : Table V}
    (hc : 0 < t.cap) (hhop : t.cap ≤ MaxHopDistance) (hadd : t.cap ≤ MaxAddDistance)
    (hfree : countOcc t < t.cap) (hh : Nat) :
    ∃ t1 f, insertInArray t hh = (t1, some f) := by
  have ho : t.clamp hh < t.cap := t.clamp_lt hh hc
  obtain ⟨f, hf⟩ := scanFree_isSome_of_free hadd ho (countOcc_lt_exists_free t hfree)
  obtain ⟨hfc, hfocc, -⟩ := scanFree_some_spec ho hf
  have hfd : t.distance (t.clamp hh) f < MaxHopDistance :=
    lt_of_lt_of_le (t.distance_lt ho hfc) hhop
  obtain ⟨m, hm⟩ : ∃ m, t.cap = m + 1 := ⟨t.cap - 1, by omega⟩
  refine ⟨(t.modifyMd (t.clamp hh)
      (fun md => md.setLeaf (t.distance (t.clamp hh) f))).modifyMd f
      (fun md => md.setOrigin (t.distance (t.clamp hh) f)), f, ?_⟩
  simp only [insertInArray]
  rw [if_neg (show ¬t.cap = 0 by omega), hf, hm]
  show hopLoop (t.clamp hh) t f (m + 1) = _
  simp only [hopLoop]
  rw [if_pos hfd]

/-- One step of the `Insert` retry loop on `EMPTY_SLOT_FOUND`. -/
theorem insertLoop_succ_some {t t1 : Table V} {hh f : Nat} (iter : Nat)
    (h : insertInArray t hh = (t1, some f)) :
    insertLoop hash getKey N hh t (iter + 1) =
      some ({ t1 with size := t1.size + 1 }, f, true) := by
  simp only [insertLoop]
  rw [h]

/-- One step of the `Insert` retry loop on `ARRAY_FULL` followed by a
successful `ExpandTable(1)`. -/
theorem insertLoop_succ_expand {t t' t2 : Table V} {hh : Nat} (iter : Nat)
    (h1 : insertInArray t hh = (t', none))
    (h2 : expandTable hash getKey N t' 1 = some t2) :
    insertLoop hash getKey N hh t (iter + 1) =
      insertLoop hash getKey N hh t2 iter := by
  simp only [insertLoop]
  rw [h1]
  show (match expandTable hash getKey N t' 1 with
    | none => none
    | some t'' => insertLoop hash getKey N hh t'' iter) =
      insertLoop hash getKey N hh t2 iter
  rw [h2]

/-- `insert` of an absent element into a non-full table whose capacity is
within hop and scan range: the first `InsertInArray` attempt succeeds and no
resize occurs. -/
theorem insert_absent_success {t : Table V} (hInv : Inv hash getKey t) (v : V)
    (hnk : ¬HasKey getKey t (getKey v))
    (hhop : t.cap ≤ MaxHopDistance) (hadd : t.cap ≤ MaxAddDistance)
    (hroom : t.size < t.cap) :
    ∃ t' i, insert hash getKey N t v = some (t', i, true) ∧ t'.cap = t.cap := by
  have hc : 0 < t.cap := by omega
  have hfind : findInArray getKey t (getKey v) (hash (getKey v)) = none :=
    (findInArray_none_iff hInv.1 (getKey v)).mpr hnk
  have hcount : countOcc t < t.cap := by
    have h2 := hInv.2
    omega
  obtain ⟨t1, f, hia⟩ := insertInArray_small_some hc hhop hadd hcount (hash (getKey v))
  have hloop : insertLoop hash getKey N (hash (getKey v)) t 4 =
      some ({ t1 with size := t1.size + 1 }, f, true) := insertLoop_succ_some 3 hia
  refine ⟨({ t1 with size := t1.size + 1 } : Table V).setValue f (some v), f, ?_, ?_⟩
  · rw [insert, Insert_eq_notfound hfind, hloop]
  · rw [Table.cap_setValue]
    exact (insertInArray_some_spec hInv.1 hia).1

/-- Folding `insert` over distinct absent keys that fit in a small table's
spare room: every insertion succeeds and the capacity never changes. -/
theorem insertMany_success : ∀ (ks : List V) (t : Table V), Inv hash getKey t →
    t.cap ≤ MaxHopDistance → t.cap ≤ MaxAddDistance →
    t.size + ks.length ≤ t.cap → (ks.map getKey).Nodup →
    (∀ v ∈ ks, ¬HasKey getKey t (getKey v)) →
    ∃ t', insertMany hash getKey N t ks = some t' ∧ Inv hash getKey t' ∧
      t'.cap = t.cap ∧ t'.size = t.size + ks.length ∧
      (∀ κ, HasKey getKey t' κ ↔ (HasKey getKey t κ ∨ κ ∈ ks.map getKey)) := by
  intro ks
  induction ks with
  | nil =>
    intro t hInv _ _ _ _ _
    exact ⟨t, rfl, hInv, rfl, rfl, fun κ => by simp⟩
  | cons v rest ih =>
    intro t hInv hhop hadd hlen hnd hnk
    have hroom : t.size < t.cap := by
      simp only [List.length_cons] at hlen
      omega
    obtain ⟨t1, i, hins, hcap1⟩ :=
      insert_absent_success hInv v (hnk v (List.mem_cons_self v rest)) hhop hadd hroom
    obtain ⟨-, hInv1, hsize1, hkey1, -, -, -, -⟩ := insert_true_spec hInv hins
    rw [List.map_cons, List.nodup_cons] at hnd
    have hrest : ∀ w ∈ rest, ¬HasKey getKey t1 (getKey w) := by
      intro w hw hkw
      rw [hkey1 (getKey w)] at hkw
      cases hkw with
      | inl h => exact hnk w (List.mem_cons_of_mem v hw) h
      | inr h => exact hnd.1 (h ▸ List.mem_map_of_mem getKey hw)
    obtain ⟨t', hmany, hInv', hcap', hsize', hkey'⟩ :=
      ih t1 hInv1 (by omega) (by omega)
        (by simp only [List.length_cons] at hlen; omega) hnd.2 hrest
    refine ⟨t', ?_, hInv', by omega, ?_, ?_⟩
    · rw [insertMany, hins]
      exact hmany
    · rw [hsize', hsize1]
      simp only [List.length_cons]
      omega
    · intro κ
      rw [hkey' κ, hkey1 κ, List.map_cons, List.mem_cons]
      tauto

/-- The migration fold of `ExpandTable` succeeds when the destination table is
within scan and hop range and has room for every occupied source slot. -/
theorem expandAux_success {told : Table V} (htold : InvCore hash getKey told) :
    ∀ (idxs : List Nat) (a : Table V), (∀ i ∈ idxs, i < told.cap) →
    InvCore hash getKey a → 0 < a.cap → a.cap ≤ MaxHopDistance →
    a.cap ≤ MaxAddDistance →
    countOcc a + idxs.countP (fun i => (told.getBucket i).md.isOccupied) ≤ a.cap →
    ∃ a', expandAux hash getKey told idxs a = some a' := by
  intro idxs
  induction idxs with
  | nil =>
    intro a _ _ _ _ _ _
    exact ⟨a, rfl⟩
  | cons i rest ih =>
    intro a hmem hInv hc hhop hadd hcnt
    have hi : i < told.cap := hmem i (List.mem_cons_self i rest)
    rw [List.countP_cons] at hcnt
    simp only [expandAux]
    cases hocc : (told.getBucket i).md.isOccupied with
    | false =>
      rw [if_neg (show ¬(false = true) by simp)]
      refine ih a (fun j hj => hmem j (List.mem_cons_of_mem i hj)) hInv hc hhop hadd ?_
      simp only [hocc] at hcnt
      simp at hcnt
      omega
    | true =>
      rw [if_pos (show (true = true) from rfl)]
      obtain ⟨w, hw⟩ := Option.isSome_iff_exists.mp
        ((invCore_occ_iff_some htold hi).mp ((isOccupied_true_iff _).mp hocc))
      simp only [hocc] at hcnt
      simp at hcnt
      have hcnt' : countOcc a < a.cap := by omega
      obtain ⟨a1, ni, hia⟩ := insertInArray_small_some hc hhop hadd hcnt'
        (hash (getKey ((told.getBucket i).get)))
      rw [hia, hw]
      have hget : (told.getBucket i).get = w := Bucket.get_of_some hw
      obtain ⟨hcap1, hsize1, hni, hspec⟩ := insertInArray_some_spec hInv hia
      obtain ⟨aInv, acap, asize, acnt, -⟩ := hspec w (by rw [hget])
      obtain ⟨a2, ha2⟩ :=
        ih (a1.setValue ni (some w)) (fun j hj => hmem j (List.mem_cons_of_mem i hj))
          aInv (by omega) (by omega) (by omega) (by rw [acnt, acap]; omega)
      exact ⟨a2, ha2⟩

/-- `ExpandTable` succeeds whenever the new capacity is within scan and hop
range and can hold every live slot. -/
theorem expandTable_success {t : Table V} (hInv : Inv hash getKey t) (delta : Nat)
    (hc : 0 < computeCapacity N (t.cap + delta))
    (hhop : computeCapacity N (t.cap + delta) ≤ MaxHopDistance)
    (hadd : computeCapacity N (t.cap + delta) ≤ MaxAddDistance)
    (hroom : t.size ≤ computeCapacity N (t.cap + delta)) :
    ∃ t', expandTable hash getKey N t delta = some t' := by
  obtain ⟨hf1, hf2, hf3, -⟩ :=
    @fresh_table_spec K V _ _ hash getKey (computeCapacity N (t.cap + delta)) 0
  have hmem : ∀ i ∈ List.range t.cap, i < t.cap := fun i hi => List.mem_range.mp hi
  have hcount := countOcc_eq_countP t
  obtain ⟨a', ha'⟩ := expandAux_success hInv.1 (List.range t.cap)
    (⟨List.replicate (computeCapacity N (t.cap + delta)) ⟨⟨0, 0⟩, none⟩, 0⟩ : Table V)
    hmem hf1 (by rw [hf2]; exact hc) (by rw [hf2]; exact hhop) (by rw [hf2]; exact hadd)
    (by rw [hf2, hf3, ← hcount]; have h2 := hInv.2; omega)
  refine ⟨{ a' with size := t.size }, ?_⟩
  simp only [expandTable]
  rw [ha']

/-- `insert` of an absent element into a completely full table within hop and
scan range whose next capacity is also within range: `InsertInArray` fails,
`ExpandTable(1)` runs, and the retried insertion succeeds in the expanded
array. -/
theorem insert_full_success {t : Table V} (hInv : Inv hash getKey t) (v : V)
    (hnk : ¬HasKey getKey t (getKey v)) (hc : 0 < t.cap) (hfull : t.cap ≤ t.size)
    (hc' : 0 < computeCapacity N (t.cap + 1))
    (hhop : computeCapacity N (t.cap + 1) ≤ MaxHopDistance)
    (hadd : computeCapacity N (t.cap + 1) ≤ MaxAddDistance)
    (hgrow : t.size < computeCapacity N (t.cap + 1)) :
    ∃ t' i, insert hash getKey N t v = some (t', i, true) ∧
      t'.cap = computeCapacity N (t.cap + 1) := by
  have hfind : findInArray getKey t (getKey v) (hash (getKey v)) = none :=
    (findInArray_none_iff hInv.1 (getKey v)).mpr hnk
  have hcnt : t.cap ≤ countOcc t := by
    have h2 := hInv.2
    omega
  have hia0 : insertInArray t (hash (getKey v)) = (t, none) := by
    simp only [insertInArray]
    rw [if_neg (show ¬t.cap = 0 by omega),
      scanFree_none_of_full hc (fun j hj => countOcc_full_all_occ t hcnt hj)]
  obtain ⟨t2, hexp⟩ := expandTable_success hInv 1 hc' hhop hadd (by omega)
  obtain ⟨hInv2, hsize2, hcap2, -⟩ := expandTable_some_spec hInv hexp
  have hcnt2 : countOcc t2 < t2.cap := by
    have h2 := hInv2.2
    omega
  obtain ⟨t3, f, hia2⟩ := insertInArray_small_some (by omega) (by omega) (by omega)
    hcnt2 (hash (getKey v))
  have hloop : insertLoop hash getKey N (hash (getKey v)) t 4 =
      some ({ t3 with size := t3.size + 1 }, f, true) := by
    have e1 : insertLoop hash getKey N (hash (getKey v)) t 4 =
        insertLoop hash getKey N (hash (getKey v)) t2 3 :=
      insertLoop_succ_expand 3 hia0 hexp
    rw [e1]
    exact insertLoop_succ_some 2 hia2
  refine ⟨({ t3 with size := t3.size + 1 } : Table V).setValue f (some v), f, ?_, ?_⟩
  · rw [insert, Insert_eq_notfound hfind, hloop]
  · rw [Table.cap_setValue]
    have h3 := (insertInArray_some_spec hInv2.1 hia2).1
    show t3.cap = computeCapacity N (t.cap + 1)
    omega

end SuccessLemmas

/-! ### Lemmas about the map index operator -/

section MapOpsLemmas

variable {K W : Type} [DecidableEq K] [Inhabited K] [Inhabited W]
variable {hash : K → Nat} {N : Nat}

/-- `operator[]` on a present key returns the found slot and touches
nothing. -/
theorem mapIndexOp_present {t : Table (K × W)} {k : K} {i : Nat}
    (h : findInArray Prod.fst t k (hash k) = some i) :
    mapIndexOp hash N t k = some (t, i) := by
  rw [mapIndexOp, Insert_eq_found h]
  rfl

/-- `operator[]` on an absent key default-constructs the mapped value,
copies the key into the slot's `first`, and grows the map by one element. -/
theorem mapIndexOp_absent {t t' : Table (K × W)} {k : K} {i : Nat}
    (hInv : Inv hash Prod.fst t) (hnk : ¬HasKey Prod.fst t k)
    (h : mapIndexOp hash N t k = some (t', i)) :
    (t'.getBucket i).value = some (k, (default : W)) ∧ t'.size = t.size + 1 ∧
      Inv hash Prod.fst t' := by
  cases hf : findInArray Prod.fst t k (hash k) with
  | some j =>
    obtain ⟨hj, -, w, hw, hkw⟩ := findInArray_some_spec hInv.1 hf
    exact absurd ⟨j, hj, w, hw, hkw⟩ hnk
  | none =>
    rw [mapIndexOp, Insert_eq_notfound hf] at h
    cases hloop : insertLoop hash Prod.fst N (hash k) t 4 with
    | none =>
      rw [hloop] at h
      cases h
    | some r =>
      obtain ⟨t1, i1, b1⟩ := r
      rw [hloop] at h
      obtain ⟨hb, hlt, hInvS, hsizeS, -, hvalS, -⟩ :=
        insertLoop_spec 4 t ((k, (default : W))) hInv hloop
      subst hb
      have h' : some (t1.setValue i1 (some (k, (default : W))), i1) = some (t', i) := h
      injection h' with h''
      injection h'' with h1 h2
      subst h1
      subst h2
      exact ⟨hvalS, hsizeS, hInvS⟩

end MapOpsLemmas

/-! ### The claims -/

/-- C1: after a successful inserting `insert` of element `v`, an immediate
`find` of `v`'s key returns exactly the slot the insertion reported, and that
slot stores `v`. -/
theorem claim_C1 {K V : Type} [DecidableEq K] [Inhabited V]
    (hash : K → Nat) (getKey : V → K) (N : Nat) (t t' : Table V) (v : V) (i : Nat)
    (hInv : Inv hash getKey t) (h : insert hash getKey N t v = some (t', i, true)) :
    find hash getKey t' (getKey v) = some i ∧ (t'.getBucket i).value = some v := by
  obtain ⟨-, -, -, -, h5, -, h7, -⟩ := insert_true_spec hInv h
  exact ⟨h7, h5⟩

theorem claim_C1_witness :
    find (fun k => k) (fun v => v)
        (⟨[⟨⟨0, 0⟩, none⟩, ⟨⟨0, 0⟩, none⟩, ⟨⟨0, 0⟩, none⟩, ⟨⟨1, 1⟩, some 7⟩], 1⟩ :
          Table Nat) 7 = some 3 ∧
      ((⟨[⟨⟨0, 0⟩, none⟩, ⟨⟨0, 0⟩, none⟩, ⟨⟨0, 0⟩, none⟩, ⟨⟨1, 1⟩, some 7⟩], 1⟩ :
          Table Nat).getBucket 3).value = some 7 :=
  claim_C1 (fun k => k) (fun v => v) 4 (mkTable 4 0)
    (⟨[⟨⟨0, 0⟩, none⟩, ⟨⟨0, 0⟩, none⟩, ⟨⟨0, 0⟩, none⟩, ⟨⟨1, 1⟩, some 7⟩], 1⟩ : Table Nat)
    7 3 (by decide) (by decide)

/-- C2: in every state reachable by the public mutators (and the resizes they
trigger), every set leaf bit `δ` of bucket `b` points at an occupied slot
`(b + δ) mod capacity` whose origin field records `δ`; every occupied slot
has exactly one (bucket, leaf-bit) pair pointing at it; and every occupied
slot's key hashes, mod capacity, to the slot minus its origin delta, mod
capacity. -/
theorem claim_C2 {K V : Type} [DecidableEq K] [Inhabited V]
    (hash : K → Nat) (getKey : V → K) (N : Nat) (t : Table V)
    (h : Reachable hash getKey N t) :
    (∀ b δ, b < t.cap → (t.getBucket b).md.hasLeaf δ = true →
      δ < t.cap ∧ (t.getBucket (t.clamp (b + δ))).md.isOccupied = true ∧
      (t.getBucket (t.clamp (b + δ))).md.getOrigin = (δ : Int)) ∧
    (∀ i, i < t.cap → (t.getBucket i).md.isOccupied = true →
      ∃! p : Nat × Nat, p.1 < t.cap ∧ (t.getBucket p.1).md.hasLeaf p.2 = true ∧
        t.clamp (p.1 + p.2) = i) ∧
    (∀ i, i < t.cap → (t.getBucket i).md.isOccupied = true →
      t.clamp (hash (getKey (t.getBucket i).get)) =
        t.clampSub i ((t.getBucket i).md.getOrigin).toNat) := by
  have hInv := (reachable_inv h).1
  refine ⟨?_, ?_, ?_⟩
  · intro b δ hb hl
    have hδk := leaf_lt_kMaskBits hInv hb hl
    obtain ⟨hδc, ho⟩ := invCore_leaf_spec hInv hb hδk hl
    refine ⟨hδc, ?_, ?_⟩
    · rw [isOccupied_true_iff, ho]
      omega
    · rw [BucketMetadata.getOrigin, ho, if_neg (by omega)]
      push_cast
      omega
  · intro i hi hocc
    have hio : (t.getBucket i).md.origin ≠ 0 := (isOccupied_true_iff _).mp hocc
    obtain ⟨hδc, hleaf, -⟩ := invCore_origin_spec hInv hi hio
    have hbs : t.clampSub i ((t.getBucket i).md.origin - 1) < t.cap :=
      t.clampSub_lt i _ (by omega)
    have hback : t.clamp (t.clampSub i ((t.getBucket i).md.origin - 1) +
        ((t.getBucket i).md.origin - 1)) = i := t.clamp_clampSub_add hi (by omega)
    refine ⟨(t.clampSub i ((t.getBucket i).md.origin - 1),
      (t.getBucket i).md.origin - 1), ⟨hbs, hleaf, hback⟩, ?_⟩
    rintro ⟨b2, δ2⟩ ⟨hb2, hl2, he2⟩
    obtain ⟨hbe, hde⟩ := leaf_unique hInv hb2 hbs hl2 hleaf (he2.trans hback.symm)
    rw [Prod.mk.injEq]
    exact ⟨hbe, hde⟩
  · intro i hi hocc
    have hio : (t.getBucket i).md.origin ≠ 0 := (isOccupied_true_iff _).mp hocc
    have hto : ((t.getBucket i).md.getOrigin).toNat = (t.getBucket i).md.origin - 1 := by
      rw [BucketMetadata.getOrigin, if_neg hio]
      omega
    rw [hto]
    exact (invCore_origin_spec hInv hi hio).2.2

theorem claim_C2_witness :
    (⟨[⟨⟨0, 0⟩, none⟩, ⟨⟨0, 0⟩, none⟩, ⟨⟨0, 0⟩, none⟩, ⟨⟨1, 1⟩, some 7⟩], 1⟩ :
        Table Nat).clamp
        ((⟨[⟨⟨0, 0⟩, none⟩, ⟨⟨0, 0⟩, none⟩, ⟨⟨0, 0⟩, none⟩, ⟨⟨1, 1⟩, some 7⟩], 1⟩ :
          Table Nat).getBucket 3).get =
      (⟨[⟨⟨0, 0⟩, none⟩, ⟨⟨0, 0⟩, none⟩, ⟨⟨0, 0⟩, none⟩, ⟨⟨1, 1⟩, some 7⟩], 1⟩ :
        Table Nat).clampSub 3
        (((⟨[⟨⟨0, 0⟩, none⟩, ⟨⟨0, 0⟩, none⟩, ⟨⟨0, 0⟩, none⟩, ⟨⟨1, 1⟩, some 7⟩], 1⟩ :
          Table Nat).getBucket 3).md.getOrigin).toNat :=
  (claim_C2 (fun k => k) (fun v => v) 4
    (⟨[⟨⟨0, 0⟩, none⟩, ⟨⟨0, 0⟩, none⟩, ⟨⟨0, 0⟩, none⟩, ⟨⟨1, 1⟩, some 7⟩], 1⟩ : Table Nat)
    (Reachable.insertStep (mkTable 4 0) 7
      (⟨[⟨⟨0, 0⟩, none⟩, ⟨⟨0, 0⟩, none⟩, ⟨⟨0, 0⟩, none⟩, ⟨⟨1, 1⟩, some 7⟩], 1⟩ : Table Nat)
      3 true (Reachable.base 0) (by decide))).2.2 3 (by decide) (by decide)

/-- C3: [corrected] after every successful `insert` the live count is at most
the capacity; the code enforces no load-factor bound, so `size` can reach
`capacity` itself (refuting `size ≤ max(N, capacity × 0.75)`). -/
theorem claim_C3 {K V : Type} [DecidableEq K] [Inhabited V]
    (hash : K → Nat) (getKey : V → K) (N : Nat) (t t' : Table V) (v : V) (i : Nat)
    (b : Bool) (hInv : Inv hash getKey t)
    (h : insert hash getKey N t v = some (t', i, b)) :
    t'.size ≤ t'.cap := by
  cases b with
  | false =>
    obtain ⟨he, -⟩ := insert_false_spec hInv h
    subst he
    have h1 := countOcc_le_cap t'
    have h2 := hInv.2
    omega
  | true =>
    obtain ⟨-, hInv', -⟩ := insert_true_spec hInv h
    have h1 := countOcc_le_cap t'
    have h2 := hInv'.2
    omega

theorem claim_C3_witness :
    (⟨[⟨⟨0, 0⟩, none⟩, ⟨⟨0, 0⟩, none⟩, ⟨⟨0, 0⟩, none⟩, ⟨⟨1, 1⟩, some 7⟩], 1⟩ :
      Table Nat).size ≤
      (⟨[⟨⟨0, 0⟩, none⟩, ⟨⟨0, 0⟩, none⟩, ⟨⟨0, 0⟩, none⟩, ⟨⟨1, 1⟩, some 7⟩], 1⟩ :
        Table Nat).cap :=
  claim_C3 (fun k => k) (fun v => v) 4 (mkTable 4 0)
    (⟨[⟨⟨0, 0⟩, none⟩, ⟨⟨0, 0⟩, none⟩, ⟨⟨0, 0⟩, none⟩, ⟨⟨1, 1⟩, some 7⟩], 1⟩ : Table Nat)
    7 3 true (by decide) (by decide)

theorem claim_C3_cex :
    (insertMany (fun k => k) (fun k => k) 8 (mkTable 8 16) (List.range 13)).map
        (fun tc => (tc.size, tc.cap, decide (tc.size ≤ max 8 (tc.cap * 3 / 4)))) =
      some (13, 16, false) := by
  decide

/-- C4: [corrected] `ComputeCapacity(desired)` returns `0` when
`max(N, desired) = 0` and otherwise the smallest power of two at least
`max(N, desired)`; there is no special value `32` for `desired = 1, N = 0`
(that input yields `1`) and no load-factor scaling. -/
theorem claim_C4 (N desired : Nat) :
    (max N desired = 0 → computeCapacity N desired = 0) ∧
    (max N desired ≠ 0 →
      max N desired ≤ computeCapacity N desired ∧
      (∃ k, computeCapacity N desired = 2 ^ k) ∧
      ∀ m, max N desired ≤ 2 ^ m → computeCapacity N desired ≤ 2 ^ m) := by
  constructor
  · intro h0
    rw [computeCapacity_eq_max, if_pos h0]
  · intro hne
    exact computeCapacity_spec N desired hne

theorem claim_C4_witness :
    computeCapacity 0 0 = 0 ∧
      (max 8 5 ≤ computeCapacity 8 5 ∧ (∃ k, computeCapacity 8 5 = 2 ^ k) ∧
        ∀ m, max 8 5 ≤ 2 ^ m → computeCapacity 8 5 ≤ 2 ^ m) :=
  ⟨(claim_C4 0 0).1 (by decide), (claim_C4 8 5).2 (by decide)⟩

theorem claim_C4_cex : computeCapacity 0 1 = 1 ∧ (1 : Nat) ≠ 32 := by
  decide

/-- C5: inserting an element whose key is present returns the existing slot
with `inserted = false` and the table unchanged; an insertion that reports
`inserted = true` had an absent key and grew `size` by exactly one. -/
theorem claim_C5 {K V : Type} [DecidableEq K] [Inhabited V]
    (hash : K → Nat) (getKey : V → K) (N : Nat) (t : Table V) (v : V)
    (hInv : Inv hash getKey t) :
    (HasKey getKey t (getKey v) →
      ∃ i, insert hash getKey N t v = some (t, i, false)) ∧
    (∀ t' i b, insert hash getKey N t v = some (t', i, b) → b = true →
      ¬HasKey getKey t (getKey v) ∧ t'.size = t.size + 1) := by
  constructor
  · intro hk
    cases hf : findInArray getKey t (getKey v) (hash (getKey v)) with
    | none => exact absurd hk ((findInArray_none_iff hInv.1 (getKey v)).mp hf)
    | some j => exact ⟨j, insert_found_spec hf⟩
  · intro t' i b h hb
    subst hb
    obtain ⟨hfind, -, hsz, -, -, -, -, -⟩ := insert_true_spec hInv h
    exact ⟨(findInArray_none_iff hInv.1 (getKey v)).mp hfind, hsz⟩

theorem claim_C5_witness :
    (∃ i, insert (fun k => k) (fun v => v)
        4 (⟨[⟨⟨0, 0⟩, none⟩, ⟨⟨0, 0⟩, none⟩, ⟨⟨0, 0⟩, none⟩, ⟨⟨1, 1⟩, some 7⟩], 1⟩ :
          Table Nat) 7 =
      some ((⟨[⟨⟨0, 0⟩, none⟩, ⟨⟨0, 0⟩, none⟩, ⟨⟨0, 0⟩, none⟩, ⟨⟨1, 1⟩, some 7⟩], 1⟩ :
        Table Nat), i, false)) ∧
    (¬HasKey (fun v => v) (mkTable (V := Nat) 4 0) 7 ∧
      (⟨[⟨⟨0, 0⟩, none⟩, ⟨⟨0, 0⟩, none⟩, ⟨⟨0, 0⟩, none⟩, ⟨⟨1, 1⟩, some 7⟩], 1⟩ :
        Table Nat).size = (mkTable (V := Nat) 4 0).size + 1) :=
  ⟨(claim_C5 (fun k => k) (fun v => v) 4
      (⟨[⟨⟨0, 0⟩, none⟩, ⟨⟨0, 0⟩, none⟩, ⟨⟨0, 0⟩, none⟩, ⟨⟨1, 1⟩, some 7⟩], 1⟩ : Table Nat)
      7 (by decide)).1 ⟨3, by decide, 7, by decide, rfl⟩,
   (claim_C5 (fun k => k) (fun v => v) 4 (mkTable 4 0) 7 (by decide)).2
      (⟨[⟨⟨0, 0⟩, none⟩, ⟨⟨0, 0⟩, none⟩, ⟨⟨0, 0⟩, none⟩, ⟨⟨1, 1⟩, some 7⟩], 1⟩ : Table Nat)
      3 true (by decide) rfl⟩

/-- C6: `erase(k)` of an absent key returns `0` and leaves the table
unchanged; of a present key it returns `1` and decrements `size`; and
inserting a fresh key then erasing it leaves `find(k)` at the end sentinel
with `size` back at its pre-insert value. -/
theorem claim_C6 {K V : Type} [DecidableEq K] [Inhabited V]
    (hash : K → Nat) (getKey : V → K) (N : Nat) (t : Table V) (k : K)
    (hInv : Inv hash getKey t) :
    (¬HasKey getKey t k → erase hash getKey t k = (t, 0)) ∧
    (HasKey getKey t k →
      (erase hash getKey t k).2 = 1 ∧ (erase hash getKey t k).1.size + 1 = t.size) ∧
    (∀ t' i v, getKey v = k → insert hash getKey N t v = some (t', i, true) →
      find hash getKey (erase hash getKey t' k).1 k = none ∧
      (erase hash getKey t' k).2 = 1 ∧ (erase hash getKey t' k).1.size = t.size) := by
  refine ⟨?_, ?_, ?_⟩
  · intro hnk
    refine erase_absent_spec ?_
    rw [find]
    exact (findInArray_none_iff hInv.1 k).mpr hnk
  · intro hk
    cases hf : find hash getKey t k with
    | none =>
      rw [find] at hf
      exact absurd hk ((findInArray_none_iff hInv.1 k).mp hf)
    | some j =>
      obtain ⟨he, hj, hocc⟩ := erase_present_spec hInv hf
      rw [he]
      obtain ⟨-, -, hsz, -, -⟩ := eraseAt_spec hInv hj hocc
      exact ⟨rfl, hsz⟩
  · intro t' i v hkv hins
    obtain ⟨-, hInv', hsz', -, -, -, hfind', huniq⟩ := insert_true_spec hInv hins
    rw [← hkv]
    obtain ⟨he, hj, hocc⟩ := erase_present_spec hInv' hfind'
    rw [he]
    obtain ⟨hInvE, hcapE, hszE, hvalE, hothE⟩ := eraseAt_spec hInv' hj hocc
    have hnk' : ¬HasKey getKey (eraseAt t' i) (getKey v) := by
      rintro ⟨j, hjc, w, hw, hkw⟩
      by_cases hji : j = i
      · subst hji
        rw [hvalE] at hw
        cases hw
      · rw [hothE j (by omega) hji] at hw
        exact huniq j (by omega) hji w hw hkw
    have hsize : (eraseAt t' i).size = t.size := by omega
    refine ⟨?_, rfl, hsize⟩
    rw [find]
    exact (findInArray_none_iff hInvE.1 (getKey v)).mpr hnk'

theorem claim_C6_witness :
    erase (fun k => k) (fun v => v) (mkTable (V := Nat) 4 0) 7 =
      (mkTable (V := Nat) 4 0, 0) ∧
    (find (fun k => k) (fun v => v)
        (erase (fun k => k) (fun v => v)
          (⟨[⟨⟨0, 0⟩, none⟩, ⟨⟨0, 0⟩, none⟩, ⟨⟨0, 0⟩, none⟩, ⟨⟨1, 1⟩, some 7⟩], 1⟩ :
            Table Nat) 7).1 7 = none ∧
      (erase (fun k => k) (fun v => v)
          (⟨[⟨⟨0, 0⟩, none⟩, ⟨⟨0, 0⟩, none⟩, ⟨⟨0, 0⟩, none⟩, ⟨⟨1, 1⟩, some 7⟩], 1⟩ :
            Table Nat) 7).2 = 1 ∧
      (erase (fun k => k) (fun v => v)
          (⟨[⟨⟨0, 0⟩, none⟩, ⟨⟨0, 0⟩, none⟩, ⟨⟨0, 0⟩, none⟩, ⟨⟨1, 1⟩, some 7⟩], 1⟩ :
            Table Nat) 7).1.size = (mkTable (V := Nat) 4 0).size) :=
  ⟨(claim_C6 (fun k => k) (fun v => v) 4 (mkTable 4 0) 7 (by decide)).1
      ((@mkTable_spec Nat Nat _ _ (fun k => k) (fun v => v) 4 0).2.2.2 7),
   (claim_C6 (fun k => k) (fun v => v) 4 (mkTable 4 0) 7 (by decide)).2.2
      (⟨[⟨⟨0, 0⟩, none⟩, ⟨⟨0, 0⟩, none⟩, ⟨⟨0, 0⟩, none⟩, ⟨⟨1, 1⟩, some 7⟩], 1⟩ : Table Nat)
      3 7 rfl (by decide)⟩

/-- C7: with inline capacity `N = 8`, a default-constructed set of integers
has capacity 8; inserting 8 distinct keys keeps the capacity at 8 (no resize)
and inserting a 9th distinct key raises it to exactly 16. -/
theorem claim_C7 (hash : Nat → Nat) (ks : List Nat) (k9 : Nat)
    (hlen : ks.length = 8) (hnd : ks.Nodup) (hk9 : k9 ∉ ks) :
    (mkTable (V := Nat) 8 0).cap = 8 ∧
    ∃ t8, insertMany hash (fun v => v) 8 (mkTable 8 0) ks = some t8 ∧ t8.cap = 8 ∧
      ∃ t9 i, insert hash (fun v => v) 8 t8 k9 = some (t9, i, true) ∧ t9.cap = 16 := by
  obtain ⟨hInv0, hcap0, hsize0, hnk0⟩ := @mkTable_spec Nat Nat _ _ hash (fun v => v) 8 0
  have hcap8 : (mkTable (V := Nat) 8 0).cap = 8 := by
    rw [hcap0]
    decide
  refine ⟨hcap8, ?_⟩
  have hmap : ks.map (fun v => v) = ks := List.map_id' ks
  obtain ⟨t8, hmany, hInv8, hcap8', hsize8, hkey8⟩ :=
    insertMany_success ks (mkTable 8 0) hInv0 (by rw [hcap8]; decide)
      (by rw [hcap8]; decide) (by rw [hcap8, hsize0, hlen])
      (by rw [hmap]; exact hnd) (fun v _ => hnk0 v)
  refine ⟨t8, hmany, by omega, ?_⟩
  have hfullness : t8.cap ≤ t8.size := by omega
  have hnk9 : ¬HasKey (fun v => v) t8 k9 := by
    intro hk
    rw [hkey8 k9] at hk
    cases hk with
    | inl h => exact hnk0 k9 h
    | inr h =>
      rw [hmap] at h
      exact hk9 h
  have hcc : computeCapacity 8 (t8.cap + 1) = 16 := by
    have he8 : t8.cap = 8 := by omega
    rw [he8]
    decide
  obtain ⟨t9, i, hins9, hcap9⟩ :=
    insert_full_success hInv8 k9 hnk9 (by omega) hfullness
      (by rw [hcc]; decide) (by rw [hcc]; decide) (by rw [hcc]; decide)
      (by rw [hcc]; omega)
  exact ⟨t9, i, hins9, by rw [hcap9, hcc]⟩

theorem claim_C7_witness :
    (mkTable (V := Nat) 8 0).cap = 8 ∧
    ∃ t8, insertMany (fun k => k) (fun v => v) 8 (mkTable 8 0)
        [0, 1, 2, 3, 4, 5, 6, 7] = some t8 ∧ t8.cap = 8 ∧
      ∃ t9 i, insert (fun k => k) (fun v => v) 8 t8 8 = some (t9, i, true) ∧
        t9.cap = 16 :=
  claim_C7 (fun k => k) [0, 1, 2, 3, 4, 5, 6, 7] 8 (by decide) (by decide) (by decide)

/-- C8: `operator[]` on a present key returns the existing slot without
inserting; on an absent key it inserts a pair of a copy of the key and a
default-constructed value, growing the map by one; and after
`m["h0"] = "w0"; m["h1"] = "w1"`, reading `m["h0"]` yields `"w0"` and
iteration visits exactly `("h0", "w0")` and `("h1", "w1")`. -/
theorem claim_C8 {K W : Type} [DecidableEq K] [Inhabited K] [Inhabited W]
    (hash : K → Nat) (N : Nat) (t : Table (K × W)) (k : K) :
    (∀ i, findInArray Prod.fst t k (hash k) = some i →
      mapIndexOp hash N t k = some (t, i)) ∧
    (∀ t' i, Inv hash Prod.fst t → ¬HasKey Prod.fst t k →
      mapIndexOp hash N t k = some (t', i) →
      (t'.getBucket i).value = some (k, (default : W)) ∧ t'.size = t.size + 1) ∧
    ((((idxAssign String.length 4 (mkTable 4 0) "h0" "w0").bind
        (fun t1 => idxAssign String.length 4 t1 "h1" "w1")).map
          (fun t2 => ((idxRead String.length 4 t2 "h0").map (fun r => r.2),
            elems t2))) =
      some (some "w0", [("h0", "w0"), ("h1", "w1")])) := by
  refine ⟨fun i h => mapIndexOp_present h, fun t' i hInv hnk h => ?_, by decide⟩
  obtain ⟨h1, h2, -⟩ := mapIndexOp_absent hInv hnk h
  exact ⟨h1, h2⟩

theorem claim_C8_witness :
    mapIndexOp String.length 4
        (⟨[⟨⟨0, 0⟩, none⟩, ⟨⟨0, 0⟩, none⟩, ⟨⟨1, 1⟩, some ("h0", "")⟩, ⟨⟨0, 0⟩, none⟩],
          1⟩ : Table (String × String)) "h0" =
      some ((⟨[⟨⟨0, 0⟩, none⟩, ⟨⟨0, 0⟩, none⟩, ⟨⟨1, 1⟩, some ("h0", "")⟩,
        ⟨⟨0, 0⟩, none⟩], 1⟩ : Table (String × String)), 2) ∧
    (((⟨[⟨⟨0, 0⟩, none⟩, ⟨⟨0, 0⟩, none⟩, ⟨⟨1, 1⟩, some ("h0", "")⟩, ⟨⟨0, 0⟩, none⟩],
        1⟩ : Table (String × String)).getBucket 2).value = some ("h0", "") ∧
      (⟨[⟨⟨0, 0⟩, none⟩, ⟨⟨0, 0⟩, none⟩, ⟨⟨1, 1⟩, some ("h0", "")⟩, ⟨⟨0, 0⟩, none⟩],
        1⟩ : Table (String × String)).size =
        (mkTable (V := String × String) 4 0).size + 1) :=
  ⟨(claim_C8 String.length 4
      (⟨[⟨⟨0, 0⟩, none⟩, ⟨⟨0, 0⟩, none⟩, ⟨⟨1, 1⟩, some ("h0", "")⟩, ⟨⟨0, 0⟩, none⟩],
        1⟩ : Table (String × String)) "h0").1 2 (by decide),
   (claim_C8 String.length 4 (mkTable 4 0) "h0").2.1
      (⟨[⟨⟨0, 0⟩, none⟩, ⟨⟨0, 0⟩, none⟩, ⟨⟨1, 1⟩, some ("h0", "")⟩, ⟨⟨0, 0⟩, none⟩],
        1⟩ : Table (String × String)) 2 (by decide)
      ((@mkTable_spec String (String × String) _ _ String.length Prod.fst 4 0).2.2.2 "h0")
      (by decide)⟩

/-- C9: looking any key up in a table of capacity zero returns the end
sentinel (the zero-capacity guard in `FindInArray` fires before any slot is
read); in particular a table default-constructed with `N = 0` and
bucket-count hint `0` behaves so. -/
theorem claim_C9 {K V : Type} [DecidableEq K] [Inhabited V]
    (hash : K → Nat) (getKey : V → K) (t : Table V) (k : K) :
    (t.cap = 0 → find hash getKey t k = none) ∧
    find hash getKey (mkTable (V := V) 0 0) k = none := by
  have hz : ∀ t0 : Table V, t0.cap = 0 → find hash getKey t0 k = none := by
    intro t0 h0
    rw [find]
    exact findInArray_zero_cap h0 k (hash k)
  exact ⟨hz t, hz (mkTable 0 0) rfl⟩

theorem claim_C9_witness :
    find (fun k => k) (fun v => v) (mkTable (V := Nat) 0 0) 5 = none :=
  (claim_C9 (fun k => k) (fun v => v) (mkTable 0 0) 5).1 (by decide)

/-- C10: inserting an element whose key is already stored (with possibly
different mapped data) returns the found slot with `inserted = false` and the
very same table: the stored element is not overwritten and no slot, metadata
word, size or capacity changes. -/
theorem claim_C10 {K V : Type} [DecidableEq K] [Inhabited V]
    (hash : K → Nat) (getKey : V → K) (N : Nat) (t : Table V) (i : Nat) (v1 v2 : V)
    (hfind : find hash getKey t (getKey v2) = some i)
    (hv1 : (t.getBucket i).value = some v1) :
    insert hash getKey N t v2 = some (t, i, false) ∧
      (t.getBucket i).value = some v1 := by
  rw [find] at hfind
  exact ⟨insert_found_spec hfind, hv1⟩

theorem claim_C10_witness :
    insert (fun k => k) (fun v => v) 4
        (⟨[⟨⟨0, 0⟩, none⟩, ⟨⟨0, 0⟩, none⟩, ⟨⟨0, 0⟩, none⟩, ⟨⟨1, 1⟩, some 7⟩], 1⟩ :
          Table Nat) 7 =
      some ((⟨[⟨⟨0, 0⟩, none⟩, ⟨⟨0, 0⟩, none⟩, ⟨⟨0, 0⟩, none⟩, ⟨⟨1, 1⟩, some 7⟩], 1⟩ :
        Table Nat), 3, false) ∧
    ((⟨[⟨⟨0, 0⟩, none⟩, ⟨⟨0, 0⟩, none⟩, ⟨⟨0, 0⟩, none⟩, ⟨⟨1, 1⟩, some 7⟩], 1⟩ :
      Table Nat).getBucket 3).value = some 7 :=
  claim_C10 (fun k => k) (fun v => v) 4
    (⟨[⟨⟨0, 0⟩, none⟩, ⟨⟨0, 0⟩, none⟩, ⟨⟨0, 0⟩, none⟩, ⟨⟨1, 1⟩, some 7⟩], 1⟩ : Table Nat)
    3 7 7 (by decide) (by decide)

end InlinedHashTable
